import Mathlib

/-!
# Verification of the hybrid route-optimization engine

Shallow embedding of the route-optimization core of the
quantum-path-planning backend (`quantum_optimizer.py`,
`classical_optimizer.py`, `quantum_layer.py`), together with proofs about
the data model and the ensemble coordinator.

Modelling conventions, used consistently below:
* Distances are rationals (`ℚ`); the Python code uses floats, but every
  claim below is about ordering and structure, not rounding.
* The distance matrix is a total function `ℕ → ℕ → ℚ`; all accesses made
  by the embedded algorithms on valid instances are in range.
* `np.random` draws are modelled by explicit oracle parameters.  An
  oracle-supplied natural number `k` standing for `np.random.randint(lo, hi)`
  is normalised to `lo + k % (hi - lo)`, which realises exactly the values
  the Python call can produce.  A draw whose only role is to pick an
  element of a nonempty pool with everywhere-positive probability is
  modelled as an oracle index into the pool.
* Python's `random() < exp(-delta/temperature)` acceptance test in
  simulated annealing is modelled as an oracle Boolean: for `delta > 0`
  the probability is strictly between 0 and 1, so both outcomes are
  realisable and every theorem below holds for all oracle values.
* Routes are `List ℕ`.
-/

/-- Open-path route cost from `quantum_optimizer.py` (`calculate_route_cost`):
sum of `distance_matrix[route[i]][route[i+1]]` over consecutive pairs, `0`
for fewer than two nodes, and no closing edge back to the start. -/
def calculate_route_cost (D : ℕ → ℕ → ℚ) : List ℕ → ℚ
  | [] => 0
  | [_] => 0
  | a :: b :: rest => D a b + calculate_route_cost D (b :: rest)

/-- The textually identical cost function from `classical_optimizer.py`. -/
def classical_calculate_route_cost (D : ℕ → ℕ → ℚ) : List ℕ → ℚ
  | [] => 0
  | [_] => 0
  | a :: b :: rest => D a b + classical_calculate_route_cost D (b :: rest)

/-- The textually identical cost function from `quantum_layer.py`. -/
def quantum_layer_calculate_route_cost (D : ℕ → ℕ → ℚ) : List ℕ → ℚ
  | [] => 0
  | [_] => 0
  | a :: b :: rest => D a b + quantum_layer_calculate_route_cost D (b :: rest)

/-- Python's `min(pool, key)` over the iteration order of `pool`: the first
element attaining the minimal key (ties keep the earlier element). -/
def minByFirst (key : ℕ → ℚ) : List ℕ → ℕ
  | [] => 0
  | a :: rest => rest.foldl (fun b x => if key x < key b then x else b) a

/-- Python's `distances.sort(); distances[0][1]` on `(key value, node)` pairs:
the node minimising the pair `(key, node)` lexicographically. -/
def greedyPick (key : ℕ → ℚ) : List ℕ → ℕ
  | [] => 0
  | a :: rest =>
      rest.foldl (fun b x =>
        if key x < key b ∨ (key x = key b ∧ x < b) then x else b) a

/-- Python's `min(routes, key=cost)` / running strict-improvement tracking
against an initial `inf`: the first route attaining the minimal cost. -/
def min_route_by_cost (D : ℕ → ℕ → ℚ) : List (List ℕ) → List ℕ
  | [] => []
  | r :: rest =>
      rest.foldl (fun b x =>
        if calculate_route_cost D x < calculate_route_cost D b then x else b) r

/-- Generic route-construction loop shared by nearest neighbor, the decode
strategies and the ant constructor: starting from `current`, repeatedly pick
one node of `remaining` (by `pick fuel current remaining`) and recurse on the
pool with that node erased.  `fuel` bounds the iteration count. -/
def pickLoop (pick : ℕ → ℕ → List ℕ → ℕ) : ℕ → List ℕ → ℕ → List ℕ
  | _, _, 0 => []
  | current, remaining, fuel + 1 =>
      if remaining.isEmpty then []
      else
        let nxt := pick (fuel + 1) current remaining
        nxt :: pickLoop pick nxt (remaining.erase nxt) fuel

/-- `nearest_neighbor_heuristic` from `quantum_optimizer.py`: start at
`start_index`, repeatedly move to the closest unvisited node.  Python's
`min` over a set of small ints iterates ascending, so ties keep the
smallest node; the pool here is kept as an ascending list. -/
def nearest_neighbor_heuristic (D : ℕ → ℕ → ℚ) (n s : ℕ) : List ℕ :=
  s :: pickLoop (fun _ cur rem => minByFirst (D cur) rem) s ((List.range n).erase s) n

/-- `route[i:j+1] = route[i:j+1][::-1]`: reverse the segment of positions
`i..j` (inclusive) of a route. -/
def reverseSegment (route : List ℕ) (i j : ℕ) : List ℕ :=
  route.take i ++ ((route.drop i).take (j + 1 - i)).reverse ++ route.drop (j + 1)

/-- `two_opt_swap` from `quantum_optimizer.py`: identity for routes shorter
than 4; otherwise reverse the segment `i..j` where `i = randint(1, n-1)` and
`j = randint(i+1, n)`; the two raw oracle draws `ab` are normalised into
exactly those ranges. -/
def two_opt_swap (ab : ℕ × ℕ) (route : List ℕ) : List ℕ :=
  let n := route.length
  if n < 4 then route
  else
    let i := 1 + ab.1 % (n - 2)
    let j := (i + 1) + ab.2 % (n - 1 - i)
    reverseSegment route i j

/-- State of the simulated-annealing loop. -/
structure SAState where
  current : List ℕ
  currentCost : ℚ
  best : List ℕ
  bestCost : ℚ
  temp : ℚ
deriving Repr, DecidableEq

/-- One iteration of `simulated_annealing_optimization`: propose a random
2-opt swap, accept if strictly cheaper or if the oracle Boolean stands in
for `random() < exp(-(new-cur)/T)`, track the best-seen route inside the
acceptance branch, and cool by the factor `0.995`. -/
def sa_step (D : ℕ → ℕ → ℚ) (ab : ℕ × ℕ) (acc : Bool) (st : SAState) : SAState :=
  let newRoute := two_opt_swap ab st.current
  let newCost := calculate_route_cost D newRoute
  if newCost < st.currentCost ∨ acc then
    if newCost < st.bestCost then
      { current := newRoute, currentCost := newCost, best := newRoute,
        bestCost := newCost, temp := st.temp * (995 / 1000) }
    else
      { current := newRoute, currentCost := newCost, best := st.best,
        bestCost := st.bestCost, temp := st.temp * (995 / 1000) }
  else
    { st with temp := st.temp * (995 / 1000) }

/-- The annealing loop: up to `fuel` iterations, stopping early once the
cooled temperature drops below the final temperature `1`. -/
def saLoop (D : ℕ → ℕ → ℚ) (pickO : ℕ → ℕ × ℕ) (accO : ℕ → Bool) :
    ℕ → SAState → SAState
  | 0, st => st
  | fuel + 1, st =>
      let st' := sa_step D (pickO (fuel + 1)) (accO (fuel + 1)) st
      if st'.temp < 1 then st' else saLoop D pickO accO fuel st'

/-- `simulated_annealing_optimization` from `quantum_optimizer.py`:
initialise with the nearest-neighbor route, run 1000 annealing iterations
(initial temperature 1000, cooling 0.995, final temperature 1), and return
the best-seen route. -/
def simulated_annealing_optimization (D : ℕ → ℕ → ℚ) (n s : ℕ)
    (pickO : ℕ → ℕ × ℕ) (accO : ℕ → Bool) : List ℕ :=
  let r0 := nearest_neighbor_heuristic D n s
  let c0 := calculate_route_cost D r0
  (saLoop D pickO accO 1000
    { current := r0, currentCost := c0, best := r0, bestCost := c0, temp := 1000 }).best

/-- One inner pass of the 2-opt sweep: for fixed `i`, try every `j` in `js`,
applying an improving segment reversal immediately (the route is mutated in
place in the source, so later comparisons see the updated route).  The
improvement test compares the closed-tour edges `(i-1,i)+(j,(j+1) mod n)`
against `(i-1,j)+(i,(j+1) mod n)`. -/
def twoOptJ (D : ℕ → ℕ → ℚ) (n i : ℕ) :
    List ℕ → Bool → List ℕ → List ℕ × Bool
  | route, improved, [] => (route, improved)
  | route, improved, j :: js =>
      let cur := D (route.getD (i - 1) 0) (route.getD i 0) +
        D (route.getD j 0) (route.getD ((j + 1) % n) 0)
      let swapped := D (route.getD (i - 1) 0) (route.getD j 0) +
        D (route.getD i 0) (route.getD ((j + 1) % n) 0)
      if swapped < cur then twoOptJ D n i (reverseSegment route i j) true js
      else twoOptJ D n i route improved js

/-- The outer `i` loop of one 2-opt sweep. -/
def twoOptI (D : ℕ → ℕ → ℚ) (n : ℕ) :
    List ℕ → Bool → List ℕ → List ℕ × Bool
  | route, improved, [] => (route, improved)
  | route, improved, i :: is =>
      let (route', improved') :=
        twoOptJ D n i route improved (List.range' (i + 1) (n - (i + 1)))
      twoOptI D n route' improved' is

/-- One full 2-opt sweep over `i in range(1, n-1)`, `j in range(i+1, n)`,
with `n` the length of the route. -/
def twoOptPass (D : ℕ → ℕ → ℚ) (route : List ℕ) : List ℕ × Bool :=
  twoOptI D route.length route false (List.range' 1 (route.length - 2))

/-- The `while improved and iteration < max_iterations` loop around the
2-opt sweep: perform up to `fuel` sweeps, stopping as soon as a sweep
applies no improving reversal. -/
def twoOptLoop (D : ℕ → ℕ → ℚ) : ℕ → List ℕ → List ℕ
  | 0, route => route
  | fuel + 1, route =>
      let (route', improved) := twoOptPass D route
      if improved then twoOptLoop D fuel route' else route'

/-- `two_opt_optimization` from `classical_optimizer.py`: the 2-opt local
search with an iteration cap of 50. -/
def two_opt_optimization (D : ℕ → ℕ → ℚ) (route : List ℕ) : List ℕ :=
  twoOptLoop D 50 route

/-- `two_opt_improvement` from `quantum_optimizer.py`: the same kernel with
an iteration cap of 100. -/
def two_opt_improvement (D : ℕ → ℕ → ℚ) (route : List ℕ) : List ℕ :=
  twoOptLoop D 100 route

/-- `generate_3opt_moves` from `quantum_optimizer.py`: split the route into
`route[:i], route[i:j], route[j:k], route[k:]` and return the seven
reconnections that reverse or exchange the two middle segments. -/
def generate_3opt_moves (route : List ℕ) (i j k : ℕ) : List (List ℕ) :=
  let seg1 := route.take i
  let seg2 := (route.drop i).take (j - i)
  let seg3 := (route.drop j).take (k - j)
  let seg4 := route.drop k
  [seg1 ++ seg2.reverse ++ seg3 ++ seg4,
   seg1 ++ seg2 ++ seg3.reverse ++ seg4,
   seg1 ++ seg2.reverse ++ seg3.reverse ++ seg4,
   seg1 ++ seg3 ++ seg2 ++ seg4,
   seg1 ++ seg3.reverse ++ seg2 ++ seg4,
   seg1 ++ seg3 ++ seg2.reverse ++ seg4,
   seg1 ++ seg3.reverse ++ seg2.reverse ++ seg4]

/-- The triples `(i, j, k)` enumerated by `three_opt_improvement`:
`i in range(1, n-2)`, `j in range(i+1, n-1)`, `k in range(j+1, n)`. -/
def three_opt_triples (n : ℕ) : List (ℕ × ℕ × ℕ) :=
  (List.range' 1 (n - 3)).flatMap (fun i =>
    (List.range' (i + 1) (n - 2 - i)).flatMap (fun j =>
      (List.range' (j + 1) (n - 1 - j)).map (fun k => (i, j, k))))

/-- `three_opt_improvement` from `quantum_optimizer.py`: moves are always
generated from the original route, and the cheapest route seen (strict
improvement, earliest wins) is returned. -/
def three_opt_improvement (D : ℕ → ℕ → ℚ) (route : List ℕ) : List ℕ :=
  let candidates := (three_opt_triples route.length).flatMap
    (fun t => generate_3opt_moves route t.1 t.2.1 t.2.2)
  min_route_by_cost D (route :: candidates)

/-- `np.random.shuffle(route[1:])` shuffles the temporary list created by
the slice `route[1:]` and discards it; its effect on `route` is the
identity.  This definition records that fact of the source. -/
def np_shuffle_of_slice_copy (route : List ℕ) : List ℕ := route

/-- The identity-based seed route `[start_index] + remaining ascending`
built by the genetic-algorithm initialiser and by the restarts of
`enhanced_two_opt_optimization` (`route = list(range(n))`, move
`start_index` to the front, then the no-op shuffle of a slice copy). -/
def identity_seed_route (n s : ℕ) : List ℕ :=
  np_shuffle_of_slice_copy (s :: (List.range n).erase s)

/-- `enhanced_two_opt_optimization` from `quantum_optimizer.py`: three
restarts (nearest neighbor, then two identity-seeded routes, the intended
shuffles being no-ops), each improved by 2-opt and — only when the route
has at least 6 nodes — by 3-opt; the cheapest result wins (earliest on
ties). -/
def enhanced_two_opt_optimization (D : ℕ → ℕ → ℚ) (n s : ℕ) : List ℕ :=
  let improve := fun (r : List ℕ) =>
    let r' := two_opt_improvement D r
    if 6 ≤ r'.length then three_opt_improvement D r' else r'
  min_route_by_cost D
    [improve (nearest_neighbor_heuristic D n s),
     improve (identity_seed_route n s),
     improve (identity_seed_route n s)]

/-- A concrete 5-node (asymmetric) distance function on which the capped
2-opt loop is not idempotent. -/
def cycleD (i j : ℕ) : ℚ :=
  (([[0, 0, 5, 5, 1], [4, 0, 1, 2, 1], [6, 3, 0, 0, 4],
     [3, 1, 5, 0, 5], [3, 6, 4, 6, 0]].getD i []).getD j 0 : ℤ)

/-- The random draws consumed by one offspring construction of the genetic
algorithm: two tournaments of three sampled indices each, the two crossover
cut draws, the mutation coin flip and the two mutation position draws. -/
structure GAChoices where
  t1 : ℕ × ℕ × ℕ
  t2 : ℕ × ℕ × ℕ
  cs : ℕ
  ce : ℕ
  doMutate : Bool
  mi : ℕ
  mj : ℕ

/-- `tournament_selection` from `quantum_optimizer.py`: sample three
population indices (oracle draws, normalised into range), compute fitness
`1/(cost + 1e-6)` and return a copy of the first fittest sampled individual
(`np.argmax` keeps the first maximum). -/
def tournament_selection (D : ℕ → ℕ → ℚ) (pop : List (List ℕ))
    (idxs : ℕ × ℕ × ℕ) : List ℕ :=
  let fit := fun (r : List ℕ) => 1 / (calculate_route_cost D r + 1 / 1000000)
  let c1 := pop.getD (idxs.1 % pop.length) []
  let c2 := pop.getD (idxs.2.1 % pop.length) []
  let c3 := pop.getD (idxs.2.2 % pop.length) []
  [c2, c3].foldl (fun b x => if fit b < fit x then x else b) c1

/-- Exchange the entries at positions `i` and `j`. -/
def swapPositions (l : List ℕ) (i j : ℕ) : List ℕ :=
  (l.set i (l.getD j 0)).set j (l.getD i 0)

/-- `mutate_route` from `quantum_optimizer.py`: for routes longer than 3,
swap two positions drawn from `randint(1, n)` (never position 0). -/
def mutate_route (mi mj : ℕ) (route : List ℕ) : List ℕ :=
  let n := route.length
  if 3 < n then swapPositions route (1 + mi % (n - 1)) (1 + mj % (n - 1))
  else route

/-- Fill the `-1` slots of the crossover child, in order, from the
remaining nodes.  (When `remaining` is exhausted with slots left the source
would raise an `IndexError`; that case is unreachable for permutation
parents and is padded with `0` here to keep the function total.) -/
def ocFill : List (Option ℕ) → List ℕ → List ℕ
  | [], _ => []
  | some v :: slots, rem => v :: ocFill slots rem
  | none :: slots, r :: rem => r :: ocFill slots rem
  | none :: slots, [] => 0 :: ocFill slots []

/-- The child array of the order crossover before filling: `child[0] = s`
and `child[start:stop] = parent1[start:stop]` (the slice assignment runs
after the position-0 write, so it wins on overlap); unassigned positions
hold `-1`, modelled as `none`. -/
def oc_slots (p1 : List ℕ) (s start stop n : ℕ) : List (Option ℕ) :=
  (List.range n).map (fun i =>
    if start ≤ i ∧ i < stop then some (p1.getD i 0)
    else if i = 0 then some s else none)

/-- `order_crossover` from `quantum_optimizer.py`: fix `start_index` at
position 0, copy `parent1[start:stop]` (cut points drawn as
`randint(1, n-1)` and `randint(start+1, n)`, normalised here), and fill the
remaining positions in `parent2` order with the nodes not yet used. -/
def order_crossover (cs ce : ℕ) (p1 p2 : List ℕ) (s : ℕ) : List ℕ :=
  let n := p1.length
  let start := 1 + cs % (n - 2)
  let stop := (start + 1) + ce % (n - 1 - start)
  let slots := oc_slots p1 s start stop n
  let used := slots.filterMap id
  let remaining := p2.filter (fun x => decide (x ∉ used))
  ocFill slots remaining

/-- The initial genetic-algorithm population: `population_size` copies of
the identity seed route — `np.random.shuffle(route[1:])` shuffles a slice
copy, so no individual is actually shuffled. -/
def ga_init_population (n s P : ℕ) : List (List ℕ) :=
  List.replicate P (identity_seed_route n s)

/-- One generation of `genetic_algorithm_optimization`: the population is
replaced wholesale by `P` offspring, each built from two tournament-selected
parents by order crossover and an optional mutation. -/
def ga_generation (D : ℕ → ℕ → ℚ) (s : ℕ) (ch : ℕ → GAChoices) (P : ℕ)
    (pop : List (List ℕ)) : List (List ℕ) :=
  (List.range P).map (fun idx =>
    let c := ch idx
    let p1 := tournament_selection D pop c.t1
    let p2 := tournament_selection D pop c.t2
    let child := order_crossover c.cs c.ce p1 p2 s
    if c.doMutate then mutate_route c.mi c.mj child else child)

/-- `genetic_algorithm_optimization` from `quantum_optimizer.py` with
population size `P` and `G` generations (call site: 50 and 100), returning
the cheapest individual of the final population. -/
def genetic_algorithm_optimization (D : ℕ → ℕ → ℚ) (n s : ℕ)
    (ch : ℕ → ℕ → GAChoices) (P G : ℕ) : List ℕ :=
  let final := (List.range G).foldl
    (fun pop g => ga_generation D s (ch g) P pop) (ga_init_population n s P)
  min_route_by_cost D final

/-- `construct_ant_route` from `quantum_optimizer.py`: starting at
`start_index`, repeatedly sample one unvisited node.  The
pheromone/distance weights only shape the sampling distribution, and every
unvisited node always has positive weight, so the draw is modelled as an
oracle index into the remaining pool. -/
def construct_ant_route (pick : ℕ → ℕ) (n s : ℕ) : List ℕ :=
  s :: pickLoop (fun f _ rem => rem.getD (pick f % rem.length) 0) s
    ((List.range n).erase s) n

/-- `ant_colony_optimization` from `quantum_optimizer.py`: `nIter`
iterations of `nAnts` ants each (call site: 100 and 20); pheromone updates
only shape later sampling distributions (absorbed into the oracle), and the
best route across all ants (strict improvement, earliest wins) is
returned. -/
def ant_colony_optimization (pick : ℕ → ℕ → ℕ) (D : ℕ → ℕ → ℚ) (n s : ℕ)
    (nAnts nIter : ℕ) : List ℕ :=
  min_route_by_cost D
    ((List.range (nIter * nAnts)).map (fun a => construct_ant_route (pick a) n s))

/-- Stable insertion step for sorting measurement counts descending. -/
def insertByCountDesc (x : List Bool × ℕ) :
    List (List Bool × ℕ) → List (List Bool × ℕ)
  | [] => [x]
  | y :: ys => if y.2 ≤ x.2 then x :: y :: ys else y :: insertByCountDesc x ys

/-- `sorted(counts.items(), key=count, reverse=True)`: stable descending
sort of the measurement outcomes by count. -/
def sortByCountDesc : List (List Bool × ℕ) → List (List Bool × ℕ)
  | [] => []
  | x :: xs => insertByCountDesc x (sortByCountDesc xs)

/-- `bitstring_to_route_greedy` from `quantum_optimizer.py`: nearest
neighbor where each candidate distance is perturbed by
`0.1 * base * (+1 or -1)` according to bit `(current*n + node) % len(bits)`;
`distances.sort()` on `(value, node)` pairs breaks ties by node index. -/
def bitstring_to_route_greedy (bits : List Bool) (n s : ℕ)
    (D : ℕ → ℕ → ℚ) : List ℕ :=
  s :: pickLoop (fun _ cur rem =>
      greedyPick (fun node =>
        let base := D cur node
        base + (1 / 10) * base *
          (if bits.getD ((cur * n + node) % bits.length) false then 1 else -1)) rem)
    s ((List.range n).erase s) n

/-- `bitstring_to_route_probabilistic` from `quantum_optimizer.py`: sample
each next node from weights `(max(distances) - d + 0.1)` normalised — all
strictly positive, so the draw is modelled as an oracle index into the
remaining pool (the bitstring only seeds the generator). -/
def bitstring_to_route_probabilistic (pick : ℕ → ℕ) (n s : ℕ) : List ℕ :=
  s :: pickLoop (fun f _ rem => rem.getD (pick f % rem.length) 0) s
    ((List.range n).erase s) n

/-- `best_route if best_route else fallback`: the cheapest candidate
(earliest wins) when any exists, else the fallback. -/
def best_route_or (D : ℕ → ℕ → ℚ) (fallback : List ℕ)
    (cands : List (List ℕ)) : List ℕ :=
  match cands with
  | [] => fallback
  | c :: rest => min_route_by_cost D (c :: rest)

/-- `advanced_decode_solution` from `quantum_optimizer.py`: take the top 10
outcomes by count, decode each by the greedy, probabilistic and plain
nearest-neighbor strategies, and keep the cheapest route (earliest wins);
when no candidate was produced, fall back to `list(range(n_nodes))`. -/
def advanced_decode_solution (pickO : ℕ → ℕ → ℕ)
    (counts : List (List Bool × ℕ)) (n s : ℕ) (D : ℕ → ℕ → ℚ) : List ℕ :=
  let top := (sortByCountDesc counts).take 10
  let cands := top.enum.flatMap (fun bi =>
    [bitstring_to_route_greedy bi.2.1 n s D,
     bitstring_to_route_probabilistic (pickO bi.1) n s,
     nearest_neighbor_heuristic D n s])
  best_route_or D (List.range n) cands

/-- `quantum_qaoa_optimization` from `quantum_optimizer.py`: three
parameter sets; for each, the external sampler either fails (`none`,
the caught per-set exception) or yields measurement counts that are decoded
five times; the cheapest decoded route wins, and if no parameter set
produced anything the classical `enhanced_two_opt_optimization` fallback
runs. -/
def quantum_qaoa_optimization (sampler : ℕ → Option (List (List Bool × ℕ)))
    (pickO : ℕ → ℕ → ℕ → ℕ → ℕ) (D : ℕ → ℕ → ℚ) (n s : ℕ) : List ℕ :=
  let cands := (List.range 3).flatMap (fun p =>
    match sampler p with
    | none => []
    | some counts =>
        (List.range 5).map (fun t => advanced_decode_solution (pickO p t) counts n s D))
  best_route_or D (enhanced_two_opt_optimization D n s) cands

/-- `is_valid_route` from `quantum_layer.py`: length `n`, no repeats, all
indices below `n`. -/
def is_valid_route (route : List ℕ) (n : ℕ) : Bool :=
  route.length == n && route.dedup.length == n && route.all (· < n)

/-- The selection loop of `bitstring_to_route` in `quantum_layer.py`:
`steps` iterations; when the current bit is set and more than one node
remains, pick one of the first `min(2, len(remaining))` remaining nodes
(oracle draw), else take the first remaining node. -/
def btrLoop (pick : ℕ → ℕ) (bits : List Bool) :
    ℕ → ℕ → List ℕ → List ℕ
  | _, 0, _ => []
  | i, steps + 1, remaining =>
      if remaining.isEmpty then []
      else
        let bit := bits.getD (i % bits.length) false
        let nxt := if bit && decide (1 < remaining.length) then
            remaining.getD (pick i % min 2 remaining.length) 0
          else remaining.headD 0
        nxt :: btrLoop pick bits (i + 1) steps (remaining.erase nxt)

/-- `bitstring_to_route` from `quantum_layer.py`: always starts at node 0
(it takes no start index) and visits the remaining nodes `1..n-1` via
`btrLoop`. -/
def bitstring_to_route (pick : ℕ → ℕ) (bits : List Bool) (n : ℕ) : List ℕ :=
  0 :: btrLoop pick bits 0 (n - 1) (List.range' 1 (n - 1))

/-- `decode_quantum_results` from `quantum_layer.py`: decode the top 10
outcomes, keep only valid routes, and fall back to `[list(range(n_nodes))]`
when none is valid. -/
def decode_quantum_results (pickO : ℕ → ℕ → ℕ)
    (counts : List (List Bool × ℕ)) (n : ℕ) : List (List ℕ) :=
  let top := (sortByCountDesc counts).take 10
  let cands := (top.enum.map (fun bi => bitstring_to_route (pickO bi.1) bi.2.1 n)).filter
    (fun r => is_valid_route r n)
  if cands.isEmpty then [List.range n] else cands

/-- The result dictionary of `hybrid_quantum_classical_optimization`:
winning route/cost/algorithm (absent only for an empty comparison list,
which cannot happen) and the per-algorithm cost table. -/
structure HybridResult where
  route : Option (List ℕ)
  cost : Option ℚ
  algorithm : Option String
  all_results : List (String × ℚ)
deriving DecidableEq

/-- The winner fold of the coordinator: running best against an initial
`inf`, replaced only on strict improvement, so the earliest entry wins
ties. -/
def select_best (D : ℕ → ℕ → ℚ) :
    List (String × List ℕ) → Option (String × List ℕ) :=
  List.foldl (fun acc p =>
    match acc with
    | none => some p
    | some b =>
        if calculate_route_cost D p.2 < calculate_route_cost D b.2 then some p
        else acc) none

/-- The `algorithms` list assembled by the coordinator, in source order:
Quantum QAOA (when attempted and successful), Simulated Annealing, Genetic
Algorithm (when gated in), Ant Colony (when gated in), Enhanced 2-opt. -/
def build_algorithms (qaoaR : Option (List ℕ)) (sa : List ℕ)
    (gaR acoR : Option (List ℕ)) (topt : List ℕ) : List (String × List ℕ) :=
  (qaoaR.elim [] (fun r => [("Quantum QAOA", r)])) ++
  [("Simulated Annealing", sa)] ++
  (gaR.elim [] (fun r => [("Genetic Algorithm", r)])) ++
  (acoR.elim [] (fun r => [("Ant Colony", r)])) ++
  [("Enhanced 2-opt", topt)]

/-- Assemble the coordinator's return value from the algorithms list. -/
def mk_hybrid_result (D : ℕ → ℕ → ℚ) (algs : List (String × List ℕ)) :
    HybridResult :=
  let best := select_best D algs
  { route := best.map (fun p => p.2),
    cost := best.map (fun p => calculate_route_cost D p.2),
    algorithm := best.map (fun p => p.1),
    all_results := algs.map (fun p => (p.1, calculate_route_cost D p.2)) }

/-- `hybrid_quantum_classical_optimization` from `quantum_optimizer.py`,
with each algorithm invocation modelled as an `Except` outcome (Python
calls can raise).  Only the Quantum QAOA call sits inside a `try/except`
(a failure is skipped); an exception from Simulated Annealing, the Genetic
Algorithm, Ant Colony or Enhanced 2-opt propagates out of the coordinator.
The Genetic Algorithm runs only for `5 ≤ n`, Ant Colony only for `4 ≤ n`,
and Quantum QAOA is attempted only for `n ≤ 8`. -/
def hybrid_quantum_classical_optimization (D : ℕ → ℕ → ℚ) (n : ℕ)
    (qaoaRes saRes gaRes acoRes toptRes : Except Unit (List ℕ)) :
    Except Unit HybridResult :=
  match saRes with
  | .error e => .error e
  | .ok sa =>
    match (if 5 ≤ n then Except.map some gaRes else .ok none) with
    | .error e => .error e
    | .ok gaR =>
      match (if 4 ≤ n then Except.map some acoRes else .ok none) with
      | .error e => .error e
      | .ok acoR =>
        match toptRes with
        | .error e => .error e
        | .ok topt =>
            .ok (mk_hybrid_result D
              (build_algorithms (if n ≤ 8 then qaoaRes.toOption else none)
                sa gaR acoR topt))

/-- All oracle inputs of one ensemble run: the Quantum QAOA failure flag
(its call is the one the coordinator may catch an exception from), the
external sampler outcome per parameter set, and the random draws of each
stochastic algorithm. -/
structure EnsembleOracle where
  qaoaFail : Bool
  sampler : ℕ → Option (List (List Bool × ℕ))
  qaoaPick : ℕ → ℕ → ℕ → ℕ → ℕ
  saPick : ℕ → ℕ × ℕ
  saAcc : ℕ → Bool
  gaChoice : ℕ → ℕ → GAChoices
  acoPick : ℕ → ℕ → ℕ

/-- Outcome of the coordinator's Quantum QAOA invocation. -/
def ensemble_qaoa_result (O : EnsembleOracle) (D : ℕ → ℕ → ℚ) (n s : ℕ) :
    Except Unit (List ℕ) :=
  if O.qaoaFail then .error ()
  else .ok (quantum_qaoa_optimization O.sampler O.qaoaPick D n s)

/-- The concrete algorithms list of one ensemble run (what the coordinator
receives from the algorithms it ran). -/
def ensemble_algorithms (O : EnsembleOracle) (D : ℕ → ℕ → ℚ) (n s : ℕ) :
    List (String × List ℕ) :=
  build_algorithms
    (if n ≤ 8 then (ensemble_qaoa_result O D n s).toOption else none)
    (simulated_annealing_optimization D n s O.saPick O.saAcc)
    (if 5 ≤ n then some (genetic_algorithm_optimization D n s O.gaChoice 50 100)
      else none)
    (if 4 ≤ n then some (ant_colony_optimization O.acoPick D n s 20 100) else none)
    (enhanced_two_opt_optimization D n s)

/-- One full coordinator run with the embedded algorithms plugged in. -/
def run_ensemble (O : EnsembleOracle) (D : ℕ → ℕ → ℚ) (n s : ℕ) :
    Except Unit HybridResult :=
  hybrid_quantum_classical_optimization D n
    (ensemble_qaoa_result O D n s)
    (.ok (simulated_annealing_optimization D n s O.saPick O.saAcc))
    (.ok (genetic_algorithm_optimization D n s O.gaChoice 50 100))
    (.ok (ant_colony_optimization O.acoPick D n s 20 100))
    (.ok (enhanced_two_opt_optimization D n s))

/-- The response of `optimize_route`: on coordinator success the hybrid
result with its comparison table; on any coordinator exception the plain
nearest-neighbor fallback, which carries no comparison table. -/
structure OptimizeResponse where
  route : List ℕ
  backend : String
  optimization_level : ℕ
  cost : ℚ
  algorithm_comparison : Option (List (String × ℚ))
deriving DecidableEq

/-- `optimize_route` from `quantum_optimizer.py`: wrap the coordinator in a
`try/except`; the fallback response is built from
`nearest_neighbor_heuristic` alone. -/
def optimize_route (D : ℕ → ℕ → ℚ) (n s : ℕ)
    (hyb : Except Unit HybridResult) : OptimizeResponse :=
  match hyb with
  | .ok r =>
      { route := r.route.getD [],
        backend := "Hybrid (" ++ r.algorithm.getD "" ++ ")",
        optimization_level := 3, cost := r.cost.getD 0,
        algorithm_comparison := some r.all_results }
  | .error _ =>
      let rt := nearest_neighbor_heuristic D n s
      { route := rt, backend := "Classical Fallback", optimization_level := 1,
        cost := calculate_route_cost D rt, algorithm_comparison := none }

/-- Modelled from the spec: the fixed winner-priority order of §3/§8 —
NearestNeighbor, TwoOpt, ThreeOpt, SimulatedAnnealing, GeneticAlgorithm,
AntColony, QuantumInspiredCandidate — mapped onto the coordinator's result
labels (2-opt and 3-opt both live in the `Enhanced 2-opt` entry; no
coordinator label corresponds to NearestNeighbor). -/
def spec_priority (name : String) : ℕ :=
  if name = "Enhanced 2-opt" then 1
  else if name = "Simulated Annealing" then 3
  else if name = "Genetic Algorithm" then 4
  else if name = "Ant Colony" then 5
  else if name = "Quantum QAOA" then 6
  else 7

/-- Modelled from the spec: the decoding-failure fallback the spec
prescribes — the identity ordering `0..n-1` rotated to start at
`startIndex`. -/
def spec_identity_rotated (n s : ℕ) : List ℕ :=
  (List.range n).rotate s

/-- A valid route for an `n`-node instance with start `s`: a permutation of
`0..n-1` beginning at `s`. -/
def ValidRoute (n s : ℕ) (r : List ℕ) : Prop :=
  r.Perm (List.range n) ∧ r.head? = some s

instance (n s : ℕ) (r : List ℕ) : Decidable (ValidRoute n s r) := by
  unfold ValidRoute; infer_instance

/-- Reference form of "minimum cost, earliest wins": the first element
attaining the minimal key. -/
def first_min_by {α : Type _} (c : α → ℚ) : List α → Option α
  | [] => none
  | x :: xs =>
      match first_min_by c xs with
      | none => some x
      | some y => if c y < c x then some y else some x

/-! ## Concrete instances used by the witnesses and counterexamples -/

/-- A uniform valid instance: symmetric, non-negative, zero diagonal. -/
def uniformD (i j : ℕ) : ℚ := if i = j then 0 else 1

def zeroGAChoices : GAChoices :=
  { t1 := (0, 0, 0), t2 := (0, 0, 0), cs := 0, ce := 0,
    doMutate := false, mi := 0, mj := 0 }

/-- Oracle whose sampler always yields an empty outcome list. -/
def oracleEmptyCounts : EnsembleOracle :=
  { qaoaFail := false, sampler := fun _ => some [],
    qaoaPick := fun _ _ _ _ => 0, saPick := fun _ => (0, 0),
    saAcc := fun _ => false, gaChoice := fun _ _ => zeroGAChoices,
    acoPick := fun _ _ => 0 }

/-- Oracle for a run in which the Quantum QAOA call raises. -/
def oracleQaoaFail : EnsembleOracle :=
  { qaoaFail := true, sampler := fun _ => none,
    qaoaPick := fun _ _ _ _ => 0, saPick := fun _ => (0, 0),
    saAcc := fun _ => false, gaChoice := fun _ _ => zeroGAChoices,
    acoPick := fun _ _ => 0 }

/-- Oracle whose sampler always fails (per-parameter-set exception). -/
def oracleNoneSampler : EnsembleOracle :=
  { qaoaFail := false, sampler := fun _ => none,
    qaoaPick := fun _ _ _ _ => 0, saPick := fun _ => (0, 0),
    saAcc := fun _ => false, gaChoice := fun _ _ => zeroGAChoices,
    acoPick := fun _ _ => 0 }

/-! ## Generic facts about the choice folds and the construction loop -/

lemma foldl_choose_mem {α : Type _} (f : α → α → α)
    (hf : ∀ b x, f b x = b ∨ f b x = x) :
    ∀ (l : List α) (b : α), l.foldl f b ∈ b :: l := by
  intro l
  induction l with
  | nil => intro b; simp
  | cons x xs ih =>
      intro b
      rw [List.foldl_cons]
      rcases List.mem_cons.1 (ih (f b x)) with h1 | h1
      · rcases hf b x with h2 | h2
        · rw [h1, h2]; exact List.mem_cons_self _ _
        · rw [h1, h2]; exact List.mem_cons_of_mem _ (List.mem_cons_self _ _)
      · exact List.mem_cons_of_mem _ (List.mem_cons_of_mem _ h1)

lemma minByFirst_mem (key : ℕ → ℚ) (l : List ℕ) (h : l ≠ []) :
    minByFirst key l ∈ l := by
  cases l with
  | nil => exact absurd rfl h
  | cons a rest =>
      exact foldl_choose_mem _ (fun b x => by
        by_cases hc : key x < key b
        · exact Or.inr (if_pos hc)
        · exact Or.inl (if_neg hc)) rest a

lemma greedyPick_mem (key : ℕ → ℚ) (l : List ℕ) (h : l ≠ []) :
    greedyPick key l ∈ l := by
  cases l with
  | nil => exact absurd rfl h
  | cons a rest =>
      exact foldl_choose_mem _ (fun b x => by
        by_cases hc : key x < key b ∨ (key x = key b ∧ x < b)
        · exact Or.inr (if_pos hc)
        · exact Or.inl (if_neg hc)) rest a

lemma min_route_by_cost_mem (D : ℕ → ℕ → ℚ) (l : List (List ℕ)) (h : l ≠ []) :
    min_route_by_cost D l ∈ l := by
  cases l with
  | nil => exact absurd rfl h
  | cons a rest =>
      exact foldl_choose_mem _ (fun b x => by
        by_cases hc : calculate_route_cost D x < calculate_route_cost D b
        · exact Or.inr (if_pos hc)
        · exact Or.inl (if_neg hc)) rest a

lemma pickLoop_perm (pick : ℕ → ℕ → List ℕ → ℕ)
    (hp : ∀ f c rem, rem ≠ [] → pick f c rem ∈ rem) :
    ∀ (fuel : ℕ) (rem : List ℕ) (c : ℕ), rem.length ≤ fuel →
      (pickLoop pick c rem fuel).Perm rem := by
  intro fuel
  induction fuel with
  | zero =>
      intro rem c h
      have : rem = [] := List.length_eq_zero.1 (Nat.le_zero.1 h)
      subst this
      simp [pickLoop]
  | succ fuel ih =>
      intro rem c h
      by_cases hrem : rem = []
      · subst hrem; simp [pickLoop]
      · have hne : rem.isEmpty = false := by
          cases rem
          · exact absurd rfl hrem
          · rfl
        rw [pickLoop, hne]
        simp only [Bool.false_eq_true, if_false]
        have hmem := hp (fuel + 1) c rem hrem
        have hlen : (rem.erase (pick (fuel + 1) c rem)).length ≤ fuel := by
          rw [List.length_erase_of_mem hmem]
          have : 1 ≤ rem.length := List.length_pos.2 hrem
          omega
        exact ((ih _ _ hlen).cons _).trans (List.perm_cons_erase hmem).symm

lemma nearest_neighbor_heuristic_valid (D : ℕ → ℕ → ℚ) (n s : ℕ) (hs : s < n) :
    ValidRoute n s (nearest_neighbor_heuristic D n s) := by
  constructor
  · have hlen : ((List.range n).erase s).length ≤ n := by
      rw [List.length_erase_of_mem (List.mem_range.2 hs), List.length_range]
      omega
    have h2 := pickLoop_perm _ (fun _ c rem h => minByFirst_mem (D c) rem h)
      n ((List.range n).erase s) s hlen
    exact (h2.cons s).trans (List.perm_cons_erase (List.mem_range.2 hs)).symm
  · rfl

lemma nearest_neighbor_heuristic_length (D : ℕ → ℕ → ℚ) (n s : ℕ) (hs : s < n) :
    (nearest_neighbor_heuristic D n s).length = n := by
  have := (nearest_neighbor_heuristic_valid D n s hs).1.length_eq
  simpa using this

/-! ## Segment reversal -/

lemma reverseSegment_perm (route : List ℕ) (i j : ℕ) (h : i ≤ j + 1) :
    (reverseSegment route i j).Perm route := by
  unfold reverseSegment
  have e1 : (route.drop i).drop (j + 1 - i) = route.drop (j + 1) := by
    rw [List.drop_drop]; congr 1; omega
  rw [List.append_assoc]
  refine List.Perm.trans
    (List.Perm.append_left _
      (List.Perm.append (List.reverse_perm _) (List.Perm.refl _))) ?_
  rw [← e1, List.take_append_drop, List.take_append_drop]

lemma reverseSegment_head (route : List ℕ) (i j : ℕ) (hi : 1 ≤ i) :
    (reverseSegment route i j).head? = route.head? := by
  unfold reverseSegment
  cases route with
  | nil => simp
  | cons a t =>
      cases i with
      | zero => omega
      | succ i' => simp [List.take_succ_cons]

lemma two_opt_swap_perm (ab : ℕ × ℕ) (route : List ℕ) :
    (two_opt_swap ab route).Perm route := by
  unfold two_opt_swap
  dsimp only
  split
  · exact List.Perm.refl _
  · exact reverseSegment_perm _ _ _ (by omega)

lemma two_opt_swap_head (ab : ℕ × ℕ) (route : List ℕ) :
    (two_opt_swap ab route).head? = route.head? := by
  unfold two_opt_swap
  dsimp only
  split
  · rfl
  · exact reverseSegment_head _ _ _ (by omega)

lemma two_opt_swap_short (ab : ℕ × ℕ) (route : List ℕ)
    (h : route.length < 4) : two_opt_swap ab route = route := by
  unfold two_opt_swap
  dsimp only
  rw [if_pos h]

/-! ## Simulated annealing invariants -/

lemma sa_step_bestCost_le (D : ℕ → ℕ → ℚ) (ab : ℕ × ℕ) (acc : Bool)
    (st : SAState) : (sa_step D ab acc st).bestCost ≤ st.bestCost := by
  unfold sa_step
  dsimp only
  split
  · split
    · next h => exact le_of_lt h
    · exact le_refl _
  · exact le_refl _

lemma sa_step_bestCost_eq (D : ℕ → ℕ → ℚ) (ab : ℕ × ℕ) (acc : Bool)
    (st : SAState) (h : st.bestCost = calculate_route_cost D st.best) :
    (sa_step D ab acc st).bestCost =
      calculate_route_cost D (sa_step D ab acc st).best := by
  unfold sa_step
  dsimp only
  split
  · split
    · rfl
    · exact h
  · exact h

lemma sa_step_valid (D : ℕ → ℕ → ℚ) (ab : ℕ × ℕ) (acc : Bool) (n s : ℕ)
    (st : SAState) (hc : ValidRoute n s st.current)
    (hb : ValidRoute n s st.best) :
    ValidRoute n s (sa_step D ab acc st).current ∧
      ValidRoute n s (sa_step D ab acc st).best := by
  have hswap : ValidRoute n s (two_opt_swap ab st.current) :=
    ⟨(two_opt_swap_perm ab st.current).trans hc.1,
     (two_opt_swap_head ab st.current).trans hc.2⟩
  unfold sa_step
  dsimp only
  split
  · split
    · exact ⟨hswap, hswap⟩
    · exact ⟨hswap, hb⟩
  · exact ⟨hc, hb⟩

lemma saLoop_bestCost_le (D : ℕ → ℕ → ℚ) (pickO : ℕ → ℕ × ℕ)
    (accO : ℕ → Bool) :
    ∀ (fuel : ℕ) (st : SAState),
      (saLoop D pickO accO fuel st).bestCost ≤ st.bestCost := by
  intro fuel
  induction fuel with
  | zero => intro st; exact le_refl _
  | succ fuel ih =>
      intro st
      rw [saLoop]
      split
      · exact sa_step_bestCost_le D _ _ st
      · exact (ih _).trans (sa_step_bestCost_le D _ _ st)

lemma saLoop_bestCost_eq (D : ℕ → ℕ → ℚ) (pickO : ℕ → ℕ × ℕ)
    (accO : ℕ → Bool) :
    ∀ (fuel : ℕ) (st : SAState),
      st.bestCost = calculate_route_cost D st.best →
      (saLoop D pickO accO fuel st).bestCost =
        calculate_route_cost D (saLoop D pickO accO fuel st).best := by
  intro fuel
  induction fuel with
  | zero => intro st h; exact h
  | succ fuel ih =>
      intro st h
      rw [saLoop]
      split
      · exact sa_step_bestCost_eq D _ _ st h
      · exact ih _ (sa_step_bestCost_eq D _ _ st h)

lemma saLoop_valid (D : ℕ → ℕ → ℚ) (pickO : ℕ → ℕ × ℕ) (accO : ℕ → Bool)
    (n s : ℕ) :
    ∀ (fuel : ℕ) (st : SAState), ValidRoute n s st.current →
      ValidRoute n s st.best →
      ValidRoute n s (saLoop D pickO accO fuel st).best := by
  intro fuel
  induction fuel with
  | zero => intro st _ hb; exact hb
  | succ fuel ih =>
      intro st hc hb
      obtain ⟨hc', hb'⟩ := sa_step_valid D (pickO (fuel + 1)) (accO (fuel + 1)) n s st hc hb
      rw [saLoop]
      split
      · exact hb'
      · exact ih _ hc' hb'

/-- The simulated-annealing result never costs more than its
nearest-neighbor seed (the best-seen tracking only ever improves). -/
lemma simulated_annealing_cost_le (D : ℕ → ℕ → ℚ) (n s : ℕ)
    (pickO : ℕ → ℕ × ℕ) (accO : ℕ → Bool) :
    calculate_route_cost D (simulated_annealing_optimization D n s pickO accO) ≤
      calculate_route_cost D (nearest_neighbor_heuristic D n s) := by
  unfold simulated_annealing_optimization
  rw [← saLoop_bestCost_eq D pickO accO 1000 _ rfl]
  exact saLoop_bestCost_le D pickO accO 1000 _

lemma simulated_annealing_valid (D : ℕ → ℕ → ℚ) (n s : ℕ)
    (pickO : ℕ → ℕ × ℕ) (accO : ℕ → Bool) (hs : s < n) :
    ValidRoute n s (simulated_annealing_optimization D n s pickO accO) := by
  unfold simulated_annealing_optimization
  exact saLoop_valid D pickO accO n s 1000 _
    (nearest_neighbor_heuristic_valid D n s hs)
    (nearest_neighbor_heuristic_valid D n s hs)

/-- For a constant loop state whose route is shorter than 4 nodes, one
annealing step only cools the temperature. -/
lemma sa_step_small (D : ℕ → ℕ → ℚ) (ab : ℕ × ℕ) (acc : Bool)
    (r0 : List ℕ) (t : ℚ) (hlen : r0.length < 4) :
    sa_step D ab acc
      { current := r0, currentCost := calculate_route_cost D r0, best := r0,
        bestCost := calculate_route_cost D r0, temp := t } =
      { current := r0, currentCost := calculate_route_cost D r0, best := r0,
        bestCost := calculate_route_cost D r0, temp := t * (995 / 1000) } := by
  unfold sa_step
  dsimp only
  rw [two_opt_swap_short ab r0 hlen]
  split
  · first
    | rfl
    | (split <;> rfl)
  · rfl

lemma saLoop_small (D : ℕ → ℕ → ℚ) (pickO : ℕ → ℕ × ℕ) (accO : ℕ → Bool)
    (r0 : List ℕ) (hlen : r0.length < 4) :
    ∀ (fuel : ℕ) (t : ℚ),
      (saLoop D pickO accO fuel
        { current := r0, currentCost := calculate_route_cost D r0, best := r0,
          bestCost := calculate_route_cost D r0, temp := t }).best = r0 := by
  intro fuel
  induction fuel with
  | zero => intro t; rfl
  | succ fuel ih =>
      intro t
      rw [saLoop]
      rw [sa_step_small D _ _ r0 t hlen]
      split
      · rfl
      · exact ih _

/-- For `n ≤ 3` (valid start), simulated annealing returns exactly its
nearest-neighbor seed: every proposed 2-opt swap is the identity. -/
lemma simulated_annealing_small (D : ℕ → ℕ → ℚ) (n s : ℕ)
    (pickO : ℕ → ℕ × ℕ) (accO : ℕ → Bool) (hn : n ≤ 3) (hs : s < n) :
    simulated_annealing_optimization D n s pickO accO =
      nearest_neighbor_heuristic D n s := by
  unfold simulated_annealing_optimization
  exact saLoop_small D pickO accO _
    (by rw [nearest_neighbor_heuristic_length D n s hs]; omega) 1000 1000

/-! ## The first-minimum characterisation of the choice folds -/

lemma foldl_min_eq_first_min {α : Type _} (c : α → ℚ) :
    ∀ (l : List α) (b : α),
      l.foldl (fun b x => if c x < c b then x else b) b =
        match first_min_by c l with
        | none => b
        | some y => if c y < c b then y else b := by
  intro l
  induction l with
  | nil => intro b; rfl
  | cons x xs ih =>
      intro b
      rw [List.foldl_cons, ih]
      rcases h : first_min_by c xs with _ | y
      · simp only [first_min_by, h]
      · simp only [first_min_by, h]
        by_cases h1 : c y < c x
        · simp only [if_pos h1]
          by_cases h2 : c x < c b
          · simp only [if_pos h2, if_pos h1, if_pos (h1.trans h2)]
          · simp only [if_neg h2]
        · simp only [if_neg h1]
          by_cases h2 : c x < c b
          · simp only [if_pos h2, if_neg h1]
          · have h3 : ¬ c y < c b :=
              not_lt.2 ((le_of_not_lt h2).trans (le_of_not_lt h1))
            simp only [if_neg h2, if_neg h3]

lemma first_min_by_eq_none {α : Type _} (c : α → ℚ) :
    ∀ l : List α, first_min_by c l = none ↔ l = [] := by
  intro l
  cases l with
  | nil => simp [first_min_by]
  | cons x xs =>
      simp only [first_min_by]
      rcases h : first_min_by c xs with _ | y
      · simp
      · constructor
        · intro hc
          by_cases h1 : c y < c x <;> simp [h1] at hc
        · intro hc
          exact absurd hc (List.cons_ne_nil x xs)

lemma first_min_by_mem {α : Type _} (c : α → ℚ) :
    ∀ (l : List α) (y : α), first_min_by c l = some y → y ∈ l := by
  intro l
  induction l with
  | nil => intro y h; simp [first_min_by] at h
  | cons x xs ih =>
      intro y h
      simp only [first_min_by] at h
      rcases h2 : first_min_by c xs with _ | z
      · simp only [h2] at h
        simp only [Option.some.injEq] at h
        simp [← h]
      · simp only [h2] at h
        by_cases h1 : c z < c x
        · rw [if_pos h1, Option.some.injEq] at h
          exact List.mem_cons_of_mem _ (ih y (h ▸ h2))
        · rw [if_neg h1, Option.some.injEq] at h
          simp [← h]

lemma first_min_by_le {α : Type _} (c : α → ℚ) :
    ∀ (l : List α) (y : α), first_min_by c l = some y →
      ∀ x ∈ l, c y ≤ c x := by
  intro l
  induction l with
  | nil => intro y h; simp [first_min_by] at h
  | cons x xs ih =>
      intro y h z hz
      simp only [first_min_by] at h
      rcases h2 : first_min_by c xs with _ | w
      · simp only [h2] at h
        have hxs : xs = [] := (first_min_by_eq_none c xs).1 h2
        subst hxs
        simp only [Option.some.injEq] at h
        rcases List.mem_singleton.1 hz with rfl
        exact le_of_eq (by rw [h])
      · simp only [h2] at h
        rcases List.mem_cons.1 hz with rfl | hz2
        · by_cases h1 : c w < c z
          · rw [if_pos h1, Option.some.injEq] at h
            exact le_of_lt (h ▸ h1)
          · rw [if_neg h1, Option.some.injEq] at h
            exact le_of_eq (by rw [h])
        · by_cases h1 : c w < c x
          · rw [if_pos h1, Option.some.injEq] at h
            exact ih y (h ▸ h2) z hz2
          · rw [if_neg h1, Option.some.injEq] at h
            subst h
            exact (le_of_not_lt h1).trans (ih w h2 z hz2)

lemma first_min_by_earliest {α : Type _} (c : α → ℚ) :
    ∀ (l : List α) (y : α), first_min_by c l = some y →
      ∃ l₁ l₂, l = l₁ ++ y :: l₂ ∧ ∀ x ∈ l₁, c y < c x := by
  intro l
  induction l with
  | nil => intro y h; simp [first_min_by] at h
  | cons x xs ih =>
      intro y h
      simp only [first_min_by] at h
      rcases h2 : first_min_by c xs with _ | z
      · simp only [h2] at h
        simp only [Option.some.injEq] at h
        exact ⟨[], xs, by simp [← h], by simp⟩
      · simp only [h2] at h
        by_cases h1 : c z < c x
        · rw [if_pos h1, Option.some.injEq] at h
          obtain ⟨l₁, l₂, hdec, hstrict⟩ := ih y (h ▸ h2)
          refine ⟨x :: l₁, l₂, by rw [List.cons_append, hdec], ?_⟩
          intro w hw
          rcases List.mem_cons.1 hw with rfl | hw2
          · exact h ▸ h1
          · exact hstrict w hw2
        · rw [if_neg h1, Option.some.injEq] at h
          exact ⟨[], xs, by simp [← h], by simp⟩

lemma min_route_by_cost_eq_first_min (D : ℕ → ℕ → ℚ) (r : List ℕ)
    (rest : List (List ℕ)) :
    some (min_route_by_cost D (r :: rest)) =
      first_min_by (calculate_route_cost D) (r :: rest) := by
  show some (rest.foldl _ r) = _
  rw [foldl_min_eq_first_min]
  rcases h : first_min_by (calculate_route_cost D) rest with _ | y
  · simp [first_min_by, h]
  · simp only [first_min_by, h]
    by_cases h1 : calculate_route_cost D y < calculate_route_cost D r
    · simp [if_pos h1]
    · simp [if_neg h1]

lemma select_best_foldl_some (D : ℕ → ℕ → ℚ) :
    ∀ (l : List (String × List ℕ)) (b : String × List ℕ),
      l.foldl (fun acc p =>
        match acc with
        | none => some p
        | some b =>
            if calculate_route_cost D p.2 < calculate_route_cost D b.2 then some p
            else acc) (some b) =
      some (l.foldl (fun b p =>
        if calculate_route_cost D p.2 < calculate_route_cost D b.2 then p else b) b) := by
  intro l
  induction l with
  | nil => intro b; rfl
  | cons x xs ih =>
      intro b
      rw [List.foldl_cons, List.foldl_cons]
      dsimp only
      by_cases h1 : calculate_route_cost D x.2 < calculate_route_cost D b.2
      · simp only [if_pos h1]
        exact ih x
      · simp only [if_neg h1]
        exact ih b

/-! ## 2-opt sweep: route preservation and the converged-fixpoint property -/

lemma twoOptJ_perm_head (D : ℕ → ℕ → ℚ) (n i : ℕ) (hi : 1 ≤ i) :
    ∀ (js : List ℕ) (route : List ℕ) (improved : Bool),
      (∀ j ∈ js, i ≤ j + 1) →
      (twoOptJ D n i route improved js).1.Perm route ∧
        (twoOptJ D n i route improved js).1.head? = route.head? := by
  intro js
  induction js with
  | nil => intro route improved _; exact ⟨List.Perm.refl _, rfl⟩
  | cons j js ih =>
      intro route improved hj
      rw [twoOptJ]
      split
      · obtain ⟨p, h⟩ := ih (reverseSegment route i j) true
          (fun j' hj' => hj j' (List.mem_cons_of_mem _ hj'))
        exact ⟨p.trans (reverseSegment_perm route i j (hj j (List.mem_cons_self _ _))),
          h.trans (reverseSegment_head route i j hi)⟩
      · exact ih route improved (fun j' hj' => hj j' (List.mem_cons_of_mem _ hj'))

lemma twoOptI_cons (D : ℕ → ℕ → ℚ) (n : ℕ) (route : List ℕ) (improved : Bool)
    (i : ℕ) (is : List ℕ) :
    twoOptI D n route improved (i :: is) =
      twoOptI D n (twoOptJ D n i route improved (List.range' (i + 1) (n - (i + 1)))).1
        (twoOptJ D n i route improved (List.range' (i + 1) (n - (i + 1)))).2 is := rfl

lemma twoOptI_perm_head (D : ℕ → ℕ → ℚ) (n : ℕ) :
    ∀ (is : List ℕ) (route : List ℕ) (improved : Bool),
      (∀ i ∈ is, 1 ≤ i) →
      (twoOptI D n route improved is).1.Perm route ∧
        (twoOptI D n route improved is).1.head? = route.head? := by
  intro is
  induction is with
  | nil => intro route improved _; exact ⟨List.Perm.refl _, rfl⟩
  | cons i is ih =>
      intro route improved hi
      rw [twoOptI_cons]
      obtain ⟨pJ, hJ⟩ := twoOptJ_perm_head D n i (hi i (List.mem_cons_self _ _))
        (List.range' (i + 1) (n - (i + 1))) route improved
        (fun j hj => by
          have := (List.mem_range'_1.1 hj).1
          omega)
      obtain ⟨pI, hI⟩ := ih _ _ (fun i' hi' => hi i' (List.mem_cons_of_mem _ hi'))
      exact ⟨pI.trans pJ, hI.trans hJ⟩

lemma twoOptPass_perm_head (D : ℕ → ℕ → ℚ) (route : List ℕ) :
    (twoOptPass D route).1.Perm route ∧
      (twoOptPass D route).1.head? = route.head? := by
  unfold twoOptPass
  exact twoOptI_perm_head D route.length _ route false
    (fun i hi => (List.mem_range'_1.1 hi).1)

lemma twoOptLoop_succ (D : ℕ → ℕ → ℚ) (fuel : ℕ) (route : List ℕ) :
    twoOptLoop D (fuel + 1) route =
      if (twoOptPass D route).2 then twoOptLoop D fuel (twoOptPass D route).1
      else (twoOptPass D route).1 := rfl

lemma twoOptLoop_perm_head (D : ℕ → ℕ → ℚ) :
    ∀ (fuel : ℕ) (route : List ℕ),
      (twoOptLoop D fuel route).Perm route ∧
        (twoOptLoop D fuel route).head? = route.head? := by
  intro fuel
  induction fuel with
  | zero => intro route; exact ⟨List.Perm.refl _, rfl⟩
  | succ fuel ih =>
      intro route
      rw [twoOptLoop_succ]
      obtain ⟨pP, hP⟩ := twoOptPass_perm_head D route
      split
      · obtain ⟨pL, hL⟩ := ih (twoOptPass D route).1
        exact ⟨pL.trans pP, hL.trans hP⟩
      · exact ⟨pP, hP⟩

lemma twoOptJ_improved_true (D : ℕ → ℕ → ℚ) (n i : ℕ) :
    ∀ (js : List ℕ) (route : List ℕ),
      (twoOptJ D n i route true js).2 = true := by
  intro js
  induction js with
  | nil => intro route; rfl
  | cons j js ih =>
      intro route
      rw [twoOptJ]
      split
      · exact ih _
      · exact ih _

lemma twoOptJ_no_improve (D : ℕ → ℕ → ℚ) (n i : ℕ) :
    ∀ (js : List ℕ) (route : List ℕ),
      (twoOptJ D n i route false js).2 = false →
      (twoOptJ D n i route false js).1 = route := by
  intro js
  induction js with
  | nil => intro route _; rfl
  | cons j js ih =>
      intro route h
      rw [twoOptJ] at h ⊢
      split at h
      · rw [twoOptJ_improved_true] at h
        exact absurd h (by simp)
      · next hc =>
          rw [if_neg hc]
          exact ih route h

lemma twoOptI_improved_true (D : ℕ → ℕ → ℚ) (n : ℕ) :
    ∀ (is : List ℕ) (route : List ℕ),
      (twoOptI D n route true is).2 = true := by
  intro is
  induction is with
  | nil => intro route; rfl
  | cons i is ih =>
      intro route
      rw [twoOptI_cons, twoOptJ_improved_true]
      exact ih _

lemma twoOptI_no_improve (D : ℕ → ℕ → ℚ) (n : ℕ) :
    ∀ (is : List ℕ) (route : List ℕ),
      (twoOptI D n route false is).2 = false →
      (twoOptI D n route false is).1 = route := by
  intro is
  induction is with
  | nil => intro route _; rfl
  | cons i is ih =>
      intro route h
      rw [twoOptI_cons] at h ⊢
      rcases hJ : (twoOptJ D n i route false (List.range' (i + 1) (n - (i + 1)))).2 with _ | _
      · have h1 := twoOptJ_no_improve D n i _ route hJ
        rw [hJ, h1] at h
        rw [h1]
        exact ih route h
      · rw [hJ, twoOptI_improved_true] at h
        exact absurd h (by simp)

lemma twoOptPass_no_improve (D : ℕ → ℕ → ℚ) (route : List ℕ)
    (h : (twoOptPass D route).2 = false) : (twoOptPass D route).1 = route :=
  twoOptI_no_improve D route.length _ route h

/-- A route whose full 2-opt sweep applies no reversal is a fixpoint of the
whole capped loop. -/
lemma twoOptLoop_fix (D : ℕ → ℕ → ℚ) (route : List ℕ)
    (h : (twoOptPass D route).2 = false) :
    ∀ fuel, twoOptLoop D fuel route = route := by
  intro fuel
  cases fuel with
  | zero => rfl
  | succ fuel =>
      rw [twoOptLoop_succ, h]
      simp only [Bool.false_eq_true, if_false]
      exact twoOptPass_no_improve D route h

/-! ## 3-opt moves -/

lemma perm_middle_swap (A B tail : List ℕ) :
    (B ++ (A ++ tail)).Perm (A ++ (B ++ tail)) := by
  rw [← List.append_assoc, ← List.append_assoc]
  exact List.Perm.append_right tail List.perm_append_comm

lemma three_opt_move_perm (seg1 A B A0 B0 seg4 : List ℕ)
    (hA : A.Perm A0) (hB : B.Perm B0) :
    (seg1 ++ A ++ B ++ seg4).Perm (seg1 ++ (A0 ++ (B0 ++ seg4))) := by
  simp only [List.append_assoc]
  exact List.Perm.append_left seg1 (hA.append (hB.append_right seg4))

lemma three_opt_move_perm_swap (seg1 A B A0 B0 seg4 : List ℕ)
    (hA : A.Perm B0) (hB : B.Perm A0) :
    (seg1 ++ A ++ B ++ seg4).Perm (seg1 ++ (A0 ++ (B0 ++ seg4))) := by
  simp only [List.append_assoc]
  exact List.Perm.append_left seg1
    ((hA.append (hB.append_right seg4)).trans (perm_middle_swap A0 B0 seg4))

lemma generate_3opt_moves_valid (route : List ℕ) (i j k : ℕ)
    (hi : 1 ≤ i) (hij : i ≤ j) (hjk : j ≤ k) :
    ∀ m ∈ generate_3opt_moves route i j k,
      m.Perm route ∧ m.head? = route.head? := by
  have e1 : (route.drop j).drop (k - j) = route.drop k := by
    rw [List.drop_drop]; congr 1; omega
  have e2 : (route.drop i).drop (j - i) = route.drop j := by
    rw [List.drop_drop]; congr 1; omega
  have hd : route.take i ++ ((route.drop i).take (j - i) ++
      ((route.drop j).take (k - j) ++ route.drop k)) = route := by
    rw [← e1, List.take_append_drop, ← e2, List.take_append_drop,
      List.take_append_drop]
  intro m hm
  simp only [generate_3opt_moves, List.mem_cons, List.not_mem_nil, or_false] at hm
  cases route with
  | nil =>
      rcases hm with rfl | rfl | rfl | rfl | rfl | rfl | rfl <;>
        exact ⟨by simp, by simp⟩
  | cons a t =>
      obtain ⟨i', rfl⟩ : ∃ i', i = i' + 1 := ⟨i - 1, by omega⟩
      constructor
      · rcases hm with rfl | rfl | rfl | rfl | rfl | rfl | rfl
        · exact (three_opt_move_perm _ _ _ _ _ _
            (List.reverse_perm _) (List.Perm.refl _)).trans (by rw [hd])
        · exact (three_opt_move_perm _ _ _ _ _ _
            (List.Perm.refl _) (List.reverse_perm _)).trans (by rw [hd])
        · exact (three_opt_move_perm _ _ _ _ _ _
            (List.reverse_perm _) (List.reverse_perm _)).trans (by rw [hd])
        · exact (three_opt_move_perm_swap _ _ _ _ _ _
            (List.Perm.refl _) (List.Perm.refl _)).trans (by rw [hd])
        · exact (three_opt_move_perm_swap _ _ _ _ _ _
            (List.reverse_perm _) (List.Perm.refl _)).trans (by rw [hd])
        · exact (three_opt_move_perm_swap _ _ _ _ _ _
            (List.Perm.refl _) (List.reverse_perm _)).trans (by rw [hd])
        · exact (three_opt_move_perm_swap _ _ _ _ _ _
            (List.reverse_perm _) (List.reverse_perm _)).trans (by rw [hd])
      · rcases hm with rfl | rfl | rfl | rfl | rfl | rfl | rfl <;>
          simp [List.take_succ_cons]

lemma three_opt_triples_bounds (n : ℕ) :
    ∀ t ∈ three_opt_triples n, 1 ≤ t.1 ∧ t.1 ≤ t.2.1 ∧ t.2.1 ≤ t.2.2 := by
  intro t ht
  simp only [three_opt_triples, List.mem_flatMap, List.mem_map] at ht
  obtain ⟨i, hi, j, hj, k, hk, rfl⟩ := ht
  have h1 := (List.mem_range'_1.1 hi).1
  have h2 := (List.mem_range'_1.1 hj).1
  have h3 := (List.mem_range'_1.1 hk).1
  refine ⟨?_, ?_, ?_⟩ <;> dsimp only <;> omega

lemma three_opt_improvement_valid (D : ℕ → ℕ → ℚ) (route : List ℕ) :
    (three_opt_improvement D route).Perm route ∧
      (three_opt_improvement D route).head? = route.head? := by
  have hmem : three_opt_improvement D route ∈
      route :: (three_opt_triples route.length).flatMap
        (fun t => generate_3opt_moves route t.1 t.2.1 t.2.2) :=
    min_route_by_cost_mem D _ (List.cons_ne_nil _ _)
  rcases List.mem_cons.1 hmem with h | h
  · rw [h]
    exact ⟨List.Perm.refl _, rfl⟩
  · rw [List.mem_flatMap] at h
    obtain ⟨t, ht, hm⟩ := h
    obtain ⟨hb1, hb2, hb3⟩ := three_opt_triples_bounds _ t ht
    exact generate_3opt_moves_valid route t.1 t.2.1 t.2.2 hb1 hb2 hb3 _ hm

/-! ## Seed routes and the enhanced 2-opt pipeline -/

lemma ValidRoute.of_perm_head {n s : ℕ} {r r' : List ℕ} (h : ValidRoute n s r)
    (hp : r'.Perm r) (hh : r'.head? = r.head?) : ValidRoute n s r' :=
  ⟨hp.trans h.1, hh.trans h.2⟩

lemma identity_seed_route_valid (n s : ℕ) (hs : s < n) :
    ValidRoute n s (identity_seed_route n s) :=
  ⟨(List.perm_cons_erase (List.mem_range.2 hs)).symm, rfl⟩

lemma two_opt_improvement_valid (D : ℕ → ℕ → ℚ) (n s : ℕ) (r : List ℕ)
    (h : ValidRoute n s r) : ValidRoute n s (two_opt_improvement D r) :=
  h.of_perm_head (twoOptLoop_perm_head D 100 r).1 (twoOptLoop_perm_head D 100 r).2

lemma two_opt_optimization_valid (D : ℕ → ℕ → ℚ) (n s : ℕ) (r : List ℕ)
    (h : ValidRoute n s r) : ValidRoute n s (two_opt_optimization D r) :=
  h.of_perm_head (twoOptLoop_perm_head D 50 r).1 (twoOptLoop_perm_head D 50 r).2

lemma enhanced_improve_valid (D : ℕ → ℕ → ℚ) (n s : ℕ) (r : List ℕ)
    (h : ValidRoute n s r) :
    ValidRoute n s
      (if 6 ≤ (two_opt_improvement D r).length then
        three_opt_improvement D (two_opt_improvement D r)
      else two_opt_improvement D r) := by
  have h2 : ValidRoute n s (two_opt_improvement D r) :=
    two_opt_improvement_valid D n s r h
  split
  · obtain ⟨p, hh⟩ := three_opt_improvement_valid D (two_opt_improvement D r)
    exact h2.of_perm_head p hh
  · exact h2

lemma enhanced_two_opt_optimization_valid (D : ℕ → ℕ → ℚ) (n s : ℕ)
    (hs : s < n) : ValidRoute n s (enhanced_two_opt_optimization D n s) := by
  have hmem : enhanced_two_opt_optimization D n s ∈
      [(if 6 ≤ (two_opt_improvement D (nearest_neighbor_heuristic D n s)).length then
          three_opt_improvement D (two_opt_improvement D (nearest_neighbor_heuristic D n s))
        else two_opt_improvement D (nearest_neighbor_heuristic D n s)),
       (if 6 ≤ (two_opt_improvement D (identity_seed_route n s)).length then
          three_opt_improvement D (two_opt_improvement D (identity_seed_route n s))
        else two_opt_improvement D (identity_seed_route n s)),
       (if 6 ≤ (two_opt_improvement D (identity_seed_route n s)).length then
          three_opt_improvement D (two_opt_improvement D (identity_seed_route n s))
        else two_opt_improvement D (identity_seed_route n s))] :=
    min_route_by_cost_mem D _ (by simp)
  simp only [List.mem_cons, List.not_mem_nil, or_false] at hmem
  rcases hmem with h | h | h <;> rw [h]
  · exact enhanced_improve_valid D n s _ (nearest_neighbor_heuristic_valid D n s hs)
  · exact enhanced_improve_valid D n s _ (identity_seed_route_valid n s hs)
  · exact enhanced_improve_valid D n s _ (identity_seed_route_valid n s hs)

/-! ## Genetic-algorithm building blocks -/

lemma swap_head_cons_perm :
    ∀ (t : List ℕ) (m a : ℕ), m < t.length →
      (t.getD m 0 :: t.set m a).Perm (a :: t) := by
  intro t
  induction t with
  | nil => intro m a h; simp at h
  | cons b t' ih =>
      intro m a h
      cases m with
      | zero =>
          simp only [List.getD_cons_zero, List.set_cons_zero]
          exact List.Perm.swap a b t'
      | succ m' =>
          simp only [List.getD_cons_succ, List.set_cons_succ]
          have h' : m' < t'.length := by simpa using h
          exact (List.Perm.swap b (t'.getD m' 0) (t'.set m' a)).trans
            (((ih m' a h').cons b).trans (List.Perm.swap a b t'))

lemma swapPositions_perm (l : List ℕ) :
    ∀ (i j : ℕ), i < l.length → j < l.length →
      (swapPositions l i j).Perm l := by
  induction l with
  | nil => intro i j hi _; simp at hi
  | cons a t ih =>
      intro i j hi hj
      cases i with
      | zero =>
          cases j with
          | zero => simp [swapPositions]
          | succ j' =>
              have hj' : j' < t.length := by simpa using hj
              simp only [swapPositions, List.getD_cons_succ, List.getD_cons_zero,
                List.set_cons_zero, List.set_cons_succ]
              exact swap_head_cons_perm t j' a hj'
      | succ i' =>
          cases j with
          | zero =>
              have hi' : i' < t.length := by simpa using hi
              simp only [swapPositions, List.getD_cons_succ, List.getD_cons_zero,
                List.set_cons_succ, List.set_cons_zero]
              exact swap_head_cons_perm t i' a hi'
          | succ j' =>
              have hi' : i' < t.length := by simpa using hi
              have hj' : j' < t.length := by simpa using hj
              simp only [swapPositions, List.getD_cons_succ, List.set_cons_succ]
              exact (ih i' j' hi' hj').cons a

lemma swapPositions_head (l : List ℕ) (i j : ℕ) (hi : 1 ≤ i) (hj : 1 ≤ j) :
    (swapPositions l i j).head? = l.head? := by
  cases l with
  | nil => simp [swapPositions]
  | cons a t =>
      cases i with
      | zero => omega
      | succ i' =>
          cases j with
          | zero => omega
          | succ j' =>
              simp [swapPositions, List.set_cons_succ, List.getD_cons_succ]

lemma mutate_route_valid (mi mj n s : ℕ) (r : List ℕ) (h : ValidRoute n s r) :
    ValidRoute n s (mutate_route mi mj r) := by
  unfold mutate_route
  dsimp only
  split
  · next hlen =>
      have hpos : 0 < r.length - 1 := by omega
      have hi : 1 + mi % (r.length - 1) < r.length := by
        have := Nat.mod_lt mi hpos; omega
      have hj : 1 + mj % (r.length - 1) < r.length := by
        have := Nat.mod_lt mj hpos; omega
      exact h.of_perm_head (swapPositions_perm r _ _ hi hj)
        (swapPositions_head r _ _ (by omega) (by omega))
  · exact h

lemma tournament_selection_mem (D : ℕ → ℕ → ℚ) (pop : List (List ℕ))
    (idxs : ℕ × ℕ × ℕ) (hpop : pop ≠ []) :
    tournament_selection D pop idxs ∈ pop := by
  have hlen : 0 < pop.length := List.length_pos.2 hpop
  have hget : ∀ k : ℕ, pop.getD (k % pop.length) [] ∈ pop := by
    intro k
    have hk : k % pop.length < pop.length := Nat.mod_lt k hlen
    rw [List.getD_eq_getElem pop [] hk]
    exact List.getElem_mem hk
  have hfold : tournament_selection D pop idxs ∈
      pop.getD (idxs.1 % pop.length) [] ::
        [pop.getD (idxs.2.1 % pop.length) [],
         pop.getD (idxs.2.2 % pop.length) []] :=
    foldl_choose_mem _
      (fun b x => by
        by_cases hc : (1 : ℚ) / (calculate_route_cost D b + 1 / 1000000) <
            1 / (calculate_route_cost D x + 1 / 1000000)
        · exact Or.inr (if_pos hc)
        · exact Or.inl (if_neg hc)) _ _
  rcases List.mem_cons.1 hfold with h | h
  · rw [h]; exact hget _
  · rcases List.mem_cons.1 h with h2 | h2
    · rw [h2]; exact hget _
    · rw [List.mem_singleton.1 h2]; exact hget _

lemma ocFill_perm :
    ∀ (slots : List (Option ℕ)) (rem : List ℕ),
      rem.length + (slots.filterMap id).length = slots.length →
      (ocFill slots rem).Perm (slots.filterMap id ++ rem) := by
  intro slots
  induction slots with
  | nil =>
      intro rem h
      have hrem : rem = [] := by
        simp only [List.filterMap_nil, List.length_nil, List.length_nil] at h
        exact List.length_eq_zero.1 (by omega)
      subst hrem
      simp [ocFill]
  | cons o slots ih =>
      intro rem h
      cases o with
      | some v =>
          have hfm : (some v :: slots).filterMap id = v :: slots.filterMap id := by
            simp
          rw [hfm] at h ⊢
          have h' : rem.length + (slots.filterMap id).length = slots.length := by
            simp only [List.length_cons] at h
            omega
          show (v :: ocFill slots rem).Perm (v :: slots.filterMap id ++ rem)
          rw [List.cons_append]
          exact (ih rem h').cons v
      | none =>
          have hfm : (none :: slots).filterMap id = slots.filterMap id := by simp
          rw [hfm] at h ⊢
          cases rem with
          | nil =>
              exfalso
              have hle := List.length_filterMap_le id slots
              simp only [List.length_nil, List.length_cons, Nat.zero_add] at h
              omega
          | cons r rem' =>
              have h' : rem'.length + (slots.filterMap id).length = slots.length := by
                simp only [List.length_cons] at h
                omega
              show (r :: ocFill slots rem').Perm (slots.filterMap id ++ r :: rem')
              exact ((ih rem' h').cons r).trans List.perm_middle.symm

lemma filterMap_cons_eq_some {f : ℕ → Option ℕ} {a : ℕ} {b : ℕ} (l : List ℕ)
    (h : f a = some b) : (a :: l).filterMap f = b :: l.filterMap f := by
  rw [List.filterMap_cons, h]

lemma filterMap_eq_map_of_some (f : ℕ → Option ℕ) (g : ℕ → ℕ) :
    ∀ l : List ℕ, (∀ a ∈ l, f a = some (g a)) → l.filterMap f = l.map g := by
  intro l
  induction l with
  | nil => intro _; rfl
  | cons a l ih =>
      intro h
      rw [filterMap_cons_eq_some l (h a (List.mem_cons_self _ _)), List.map_cons,
        ih (fun x hx => h x (List.mem_cons_of_mem _ hx))]

lemma map_getD_range' (l : List ℕ) :
    ∀ (m st : ℕ), st + m ≤ l.length →
      (List.range' st m).map (fun i => l.getD i 0) = (l.drop st).take m := by
  intro m
  induction m with
  | zero => intro st h; simp
  | succ m ih =>
      intro st h
      have hst : st < l.length := by omega
      rw [List.range'_succ, List.map_cons, ih (st + 1) (by omega),
        List.drop_eq_getElem_cons hst, List.take_succ_cons,
        List.getD_eq_getElem l 0 hst]

lemma range_split_three (start stop n : ℕ) (h1 : start ≤ stop) (h2 : stop ≤ n) :
    List.range n = List.range' 0 start ++
      (List.range' start (stop - start) ++ List.range' stop (n - stop)) := by
  have e1 := List.range'_append start (stop - start) (n - stop) 1
  rw [show start + 1 * (stop - start) = stop by omega,
    show n - stop + (stop - start) = n - start by omega] at e1
  have e2 := List.range'_append 0 start (n - start) 1
  rw [show 0 + 1 * start = start by omega,
    show n - start + start = n by omega] at e2
  rw [List.range_eq_range', ← e2, e1]

lemma oc_slots_filterMap (p1 : List ℕ) (s start stop n : ℕ)
    (hstart1 : 1 ≤ start) (hss : start < stop) (hstop : stop ≤ n) :
    (oc_slots p1 s start stop n).filterMap id =
      s :: (List.range' start (stop - start)).map (fun i => p1.getD i 0) := by
  unfold oc_slots
  rw [List.filterMap_map, Function.id_comp]
  rw [range_split_three start stop n (by omega) hstop]
  rw [List.filterMap_append, List.filterMap_append]
  have hA : (List.range' 0 start).filterMap (fun i =>
      if start ≤ i ∧ i < stop then some (p1.getD i 0)
      else if i = 0 then some s else none) = [s] := by
    obtain ⟨st', rfl⟩ : ∃ st', start = st' + 1 := ⟨start - 1, by omega⟩
    rw [List.range'_succ]
    rw [filterMap_cons_eq_some _ (by
      rw [if_neg (by omega), if_pos rfl])]
    rw [List.filterMap_eq_nil_iff.2 (fun a ha => ?_)]
    have hb := List.mem_range'_1.1 ha
    rw [if_neg (by omega), if_neg (by omega)]
  have hB : (List.range' start (stop - start)).filterMap (fun i =>
      if start ≤ i ∧ i < stop then some (p1.getD i 0)
      else if i = 0 then some s else none) =
      (List.range' start (stop - start)).map (fun i => p1.getD i 0) := by
    refine filterMap_eq_map_of_some _ _ _ (fun a ha => ?_)
    have hb := List.mem_range'_1.1 ha
    rw [if_pos (by omega)]
  have hC : (List.range' stop (n - stop)).filterMap (fun i =>
      if start ≤ i ∧ i < stop then some (p1.getD i 0)
      else if i = 0 then some s else none) = [] := by
    refine List.filterMap_eq_nil_iff.2 (fun a ha => ?_)
    have hb := List.mem_range'_1.1 ha
    rw [if_neg (by omega), if_neg (by omega)]
  rw [hA, hB, hC, List.append_nil]
  rfl

lemma crossover_core_valid (n s start stop : ℕ) (p1 p2 : List ℕ)
    (h1 : ValidRoute n s p1) (h2 : ValidRoute n s p2)
    (hstart1 : 1 ≤ start) (hss : start < stop) (hstop : stop ≤ n - 1) :
    ValidRoute n s (ocFill (oc_slots p1 s start stop n)
      (p2.filter (fun x => decide
        (x ∉ (oc_slots p1 s start stop n).filterMap id)))) := by
  have np1 : p1.length = n := by simpa using h1.1.length_eq
  have np2 : p2.length = n := by simpa using h2.1.length_eq
  have hn3 : 3 ≤ n := by omega
  obtain ⟨t1, ht1⟩ : ∃ t1, p1 = s :: t1 := by
    cases hp : p1 with
    | nil => rw [hp] at h1; exact absurd h1.2 (by simp)
    | cons a t =>
        rw [hp] at h1
        have ha := h1.2
        simp only [List.head?_cons, Option.some.injEq] at ha
        exact ⟨t, by rw [ha]⟩
  have hused : (oc_slots p1 s start stop n).filterMap id =
      s :: (p1.drop start).take (stop - start) := by
    rw [oc_slots_filterMap p1 s start stop n hstart1 hss (by omega),
      map_getD_range' p1 (stop - start) start (by omega)]
  set slice := (p1.drop start).take (stop - start) with hslice_def
  have hp1nodup : p1.Nodup := h1.1.nodup_iff.2 (List.nodup_range n)
  have hp2nodup : p2.Nodup := h2.1.nodup_iff.2 (List.nodup_range n)
  have hslicesub : slice.Sublist p1 :=
    ((p1.drop start).take_sublist _).trans (p1.drop_sublist start)
  have hslicenodup : slice.Nodup := hslicesub.nodup hp1nodup
  have hsnotin : s ∉ slice := by
    intro hs
    obtain ⟨st', hst'⟩ : ∃ st', start = st' + 1 := ⟨start - 1, by omega⟩
    have hdrop : p1.drop start = t1.drop st' := by
      rw [ht1, hst', List.drop_succ_cons]
    have hslice_t1 : slice.Sublist t1 := by
      rw [hslice_def, hdrop]
      exact ((t1.drop st').take_sublist _).trans (t1.drop_sublist st')
    have hs_t1 : s ∈ t1 := hslice_t1.subset hs
    rw [ht1] at hp1nodup
    exact (List.nodup_cons.1 hp1nodup).1 hs_t1
  have husednodup : ((oc_slots p1 s start stop n).filterMap id).Nodup := by
    rw [hused]
    exact List.nodup_cons.2 ⟨hsnotin, hslicenodup⟩
  have hsub_used : ∀ x ∈ (oc_slots p1 s start stop n).filterMap id, x ∈ p2 := by
    intro x hx
    rw [hused] at hx
    rcases List.mem_cons.1 hx with rfl | hx2
    · exact List.mem_of_mem_head? h2.2
    · have hxp1 : x ∈ p1 := hslicesub.subset hx2
      exact (h2.1.mem_iff).2 ((h1.1.mem_iff).1 hxp1)
  have hpred : (fun x => decide (x ∉ (oc_slots p1 s start stop n).filterMap id)) =
      (fun x => ! decide (x ∈ (oc_slots p1 s start stop n).filterMap id)) := by
    funext x; exact decide_not
  have hpart : (p2.filter (fun x => decide (x ∈ (oc_slots p1 s start stop n).filterMap id)) ++
      p2.filter (fun x => decide (x ∉ (oc_slots p1 s start stop n).filterMap id))).Perm p2 := by
    rw [hpred]
    exact List.filter_append_perm _ p2
  have hfilterperm :
      (p2.filter (fun x => decide (x ∈ (oc_slots p1 s start stop n).filterMap id))).Perm
        ((oc_slots p1 s start stop n).filterMap id) := by
    refine (List.perm_ext_iff_of_nodup (hp2nodup.filter _) husednodup).2 (fun a => ?_)
    simp only [List.mem_filter, decide_eq_true_eq]
    constructor
    · rintro ⟨_, ha⟩; exact ha
    · intro ha; exact ⟨hsub_used a ha, ha⟩
  have hslots_len : (oc_slots p1 s start stop n).length = n := by
    unfold oc_slots
    rw [List.length_map, List.length_range]
  have hlenpart :
      (p2.filter (fun x => decide (x ∈ (oc_slots p1 s start stop n).filterMap id))).length +
      (p2.filter (fun x => decide (x ∉ (oc_slots p1 s start stop n).filterMap id))).length
        = n := by
    have hl := hpart.length_eq
    rw [List.length_append] at hl
    omega
  have hoclen :
      (p2.filter (fun x => decide (x ∉ (oc_slots p1 s start stop n).filterMap id))).length +
      ((oc_slots p1 s start stop n).filterMap id).length =
        (oc_slots p1 s start stop n).length := by
    have := hfilterperm.length_eq
    omega
  have hfill := ocFill_perm (oc_slots p1 s start stop n)
    (p2.filter (fun x => decide (x ∉ (oc_slots p1 s start stop n).filterMap id))) hoclen
  constructor
  · refine hfill.trans ?_
    refine List.Perm.trans ?_ (hpart.trans h2.1)
    exact (hfilterperm.symm).append_right _
  · obtain ⟨m, rfl⟩ : ∃ m, n = m + 1 := ⟨n - 1, by omega⟩
    have hslots_cons : oc_slots p1 s start stop (m + 1) =
        some s :: ((List.range m).map Nat.succ).map (fun i =>
          if start ≤ i ∧ i < stop then some (p1.getD i 0)
          else if i = 0 then some s else none) := by
      unfold oc_slots
      rw [List.range_succ_eq_map, List.map_cons]
      rw [if_neg (by omega), if_pos rfl]
    rw [hslots_cons]
    rfl

lemma order_crossover_valid (cs ce n s : ℕ) (p1 p2 : List ℕ)
    (h1 : ValidRoute n s p1) (h2 : ValidRoute n s p2) (hn : 3 ≤ n) :
    ValidRoute n s (order_crossover cs ce p1 p2 s) := by
  have np1 : p1.length = n := by simpa using h1.1.length_eq
  unfold order_crossover
  simp only [np1]
  have hstart2 : cs % (n - 2) < n - 2 := Nat.mod_lt cs (by omega)
  have hstop2 : ce % (n - 1 - (1 + cs % (n - 2))) < n - 1 - (1 + cs % (n - 2)) :=
    Nat.mod_lt ce (by omega)
  exact crossover_core_valid n s _ _ p1 p2 h1 h2 (by omega) (by omega) (by omega)

/-! ## Genetic-algorithm loop validity -/

lemma ga_generation_valid (D : ℕ → ℕ → ℚ) (n s : ℕ) (ch : ℕ → GAChoices)
    (P : ℕ) (pop : List (List ℕ)) (hpop : pop ≠ [])
    (hall : ∀ r ∈ pop, ValidRoute n s r) (hn : 3 ≤ n) :
    ∀ r ∈ ga_generation D s ch P pop, ValidRoute n s r := by
  intro r hr
  unfold ga_generation at hr
  rw [List.mem_map] at hr
  obtain ⟨idx, _, rfl⟩ := hr
  have hp1 := tournament_selection_mem D pop (ch idx).t1 hpop
  have hp2 := tournament_selection_mem D pop (ch idx).t2 hpop
  have hchild := order_crossover_valid (ch idx).cs (ch idx).ce n s _ _
    (hall _ hp1) (hall _ hp2) hn
  dsimp only
  split
  · exact mutate_route_valid _ _ n s _ hchild
  · exact hchild

lemma ga_generation_length (D : ℕ → ℕ → ℚ) (s : ℕ) (ch : ℕ → GAChoices)
    (P : ℕ) (pop : List (List ℕ)) :
    (ga_generation D s ch P pop).length = P := by
  unfold ga_generation
  rw [List.length_map, List.length_range]

lemma genetic_algorithm_optimization_valid (D : ℕ → ℕ → ℚ) (n s : ℕ)
    (ch : ℕ → ℕ → GAChoices) (P G : ℕ) (hs : s < n) (hn : 3 ≤ n) (hP : 0 < P) :
    ValidRoute n s (genetic_algorithm_optimization D n s ch P G) := by
  unfold genetic_algorithm_optimization
  have hinv : ∀ (gs : List ℕ) (pop : List (List ℕ)), pop.length = P →
      (∀ r ∈ pop, ValidRoute n s r) →
      (gs.foldl (fun pop g => ga_generation D s (ch g) P pop) pop).length = P ∧
      ∀ r ∈ gs.foldl (fun pop g => ga_generation D s (ch g) P pop) pop,
        ValidRoute n s r := by
    intro gs
    induction gs with
    | nil => intro pop hl ha; exact ⟨hl, ha⟩
    | cons g gs ih =>
        intro pop hl ha
        rw [List.foldl_cons]
        refine ih _ (ga_generation_length D s (ch g) P pop) ?_
        refine ga_generation_valid D n s (ch g) P pop ?_ ha hn
        intro hnil
        rw [hnil] at hl
        simp at hl
        omega
  obtain ⟨hlen, hall⟩ := hinv (List.range G) (ga_init_population n s P)
    (by simp [ga_init_population]) (by
      intro r hr
      rw [ga_init_population] at hr
      rw [(List.mem_replicate.1 hr).2]
      exact identity_seed_route_valid n s hs)
  have hne : (List.range G).foldl (fun pop g => ga_generation D s (ch g) P pop)
      (ga_init_population n s P) ≠ [] := by
    intro h0
    rw [h0] at hlen
    simp at hlen
    omega
  exact hall _ (min_route_by_cost_mem D _ hne)

/-! ## Ant colony and decode-strategy validity -/

lemma pickLoop_route_valid (pick : ℕ → ℕ → List ℕ → ℕ)
    (hp : ∀ f c rem, rem ≠ [] → pick f c rem ∈ rem) (n s : ℕ) (hs : s < n) :
    ValidRoute n s (s :: pickLoop pick s ((List.range n).erase s) n) := by
  constructor
  · have hlen : ((List.range n).erase s).length ≤ n := by
      rw [List.length_erase_of_mem (List.mem_range.2 hs), List.length_range]
      omega
    have hperm := pickLoop_perm pick hp n ((List.range n).erase s) s hlen
    exact (hperm.cons s).trans (List.perm_cons_erase (List.mem_range.2 hs)).symm
  · rfl

lemma getD_mod_mem (k : ℕ) (rem : List ℕ) (hrem : rem ≠ []) :
    rem.getD (k % rem.length) 0 ∈ rem := by
  have hl : 0 < rem.length := List.length_pos.2 hrem
  have hk : k % rem.length < rem.length := Nat.mod_lt k hl
  rw [List.getD_eq_getElem rem 0 hk]
  exact List.getElem_mem hk

lemma construct_ant_route_valid (pick : ℕ → ℕ) (n s : ℕ) (hs : s < n) :
    ValidRoute n s (construct_ant_route pick n s) :=
  pickLoop_route_valid _ (fun f _ rem hrem => getD_mod_mem (pick f) rem hrem) n s hs

lemma ant_colony_optimization_valid (pick : ℕ → ℕ → ℕ) (D : ℕ → ℕ → ℚ)
    (n s nAnts nIter : ℕ) (hs : s < n) (hpos : 0 < nIter * nAnts) :
    ValidRoute n s (ant_colony_optimization pick D n s nAnts nIter) := by
  unfold ant_colony_optimization
  have hne : (List.range (nIter * nAnts)).map
      (fun a => construct_ant_route (pick a) n s) ≠ [] := by
    intro h0
    have := congrArg List.length h0
    rw [List.length_map, List.length_range, List.length_nil] at this
    omega
  have hmem := min_route_by_cost_mem D _ hne
  rw [List.mem_map] at hmem
  obtain ⟨a, _, heq⟩ := hmem
  rw [← heq]
  exact construct_ant_route_valid (pick a) n s hs

lemma bitstring_to_route_greedy_valid (bits : List Bool) (n s : ℕ)
    (D : ℕ → ℕ → ℚ) (hs : s < n) :
    ValidRoute n s (bitstring_to_route_greedy bits n s D) :=
  pickLoop_route_valid _ (fun _ _ rem hrem => greedyPick_mem _ rem hrem) n s hs

lemma bitstring_to_route_probabilistic_valid (pick : ℕ → ℕ) (n s : ℕ)
    (hs : s < n) : ValidRoute n s (bitstring_to_route_probabilistic pick n s) :=
  pickLoop_route_valid _ (fun f _ rem hrem => getD_mod_mem (pick f) rem hrem) n s hs

lemma insertByCountDesc_perm (x : List Bool × ℕ) :
    ∀ l : List (List Bool × ℕ), (insertByCountDesc x l).Perm (x :: l) := by
  intro l
  induction l with
  | nil => exact List.Perm.refl _
  | cons y ys ih =>
      rw [insertByCountDesc]
      split
      · exact List.Perm.refl _
      · exact (ih.cons y).trans (List.Perm.swap x y ys)

lemma sortByCountDesc_perm :
    ∀ l : List (List Bool × ℕ), (sortByCountDesc l).Perm l := by
  intro l
  induction l with
  | nil => exact List.Perm.refl _
  | cons x xs ih =>
      rw [sortByCountDesc]
      exact (insertByCountDesc_perm x (sortByCountDesc xs)).trans (ih.cons x)

lemma best_route_or_mem (D : ℕ → ℕ → ℚ) (fb : List ℕ) (cands : List (List ℕ))
    (h : cands ≠ []) : best_route_or D fb cands ∈ cands := by
  cases cands with
  | nil => exact absurd rfl h
  | cons c rest => exact min_route_by_cost_mem D _ (List.cons_ne_nil _ _)

lemma advanced_decode_solution_valid (pickO : ℕ → ℕ → ℕ)
    (counts : List (List Bool × ℕ)) (n s : ℕ) (D : ℕ → ℕ → ℚ)
    (hs : s < n) (hc : counts ≠ []) :
    ValidRoute n s (advanced_decode_solution pickO counts n s D) := by
  unfold advanced_decode_solution
  obtain ⟨b0, top', htop'⟩ :
      ∃ b0 top', (sortByCountDesc counts).take 10 = b0 :: top' := by
    cases h : (sortByCountDesc counts).take 10 with
    | nil =>
        exfalso
        have := congrArg List.length h
        rw [List.length_take, (sortByCountDesc_perm counts).length_eq,
          List.length_nil] at this
        have hcl : 0 < counts.length := List.length_pos.2 hc
        omega
    | cons a l => exact ⟨a, l, rfl⟩
  have hvalid : ∀ r ∈ ((sortByCountDesc counts).take 10).enum.flatMap (fun bi =>
      [bitstring_to_route_greedy bi.2.1 n s D,
       bitstring_to_route_probabilistic (pickO bi.1) n s,
       nearest_neighbor_heuristic D n s]), ValidRoute n s r := by
    intro r hr
    rw [List.mem_flatMap] at hr
    obtain ⟨bi, _, hr2⟩ := hr
    simp only [List.mem_cons, List.mem_singleton, List.not_mem_nil, or_false] at hr2
    rcases hr2 with rfl | rfl | rfl
    · exact bitstring_to_route_greedy_valid _ n s D hs
    · exact bitstring_to_route_probabilistic_valid _ n s hs
    · exact nearest_neighbor_heuristic_valid D n s hs
  have hne : ((sortByCountDesc counts).take 10).enum.flatMap (fun bi =>
      [bitstring_to_route_greedy bi.2.1 n s D,
       bitstring_to_route_probabilistic (pickO bi.1) n s,
       nearest_neighbor_heuristic D n s]) ≠ [] := by
    have hmem : nearest_neighbor_heuristic D n s ∈
        ((sortByCountDesc counts).take 10).enum.flatMap (fun bi =>
          [bitstring_to_route_greedy bi.2.1 n s D,
           bitstring_to_route_probabilistic (pickO bi.1) n s,
           nearest_neighbor_heuristic D n s]) :=
      List.mem_flatMap.2 ⟨(0, b0),
        by rw [htop', List.enum_cons]; exact List.mem_cons_self _ _, by simp⟩
    exact List.ne_nil_of_mem hmem
  exact hvalid _ (best_route_or_mem D _ _ hne)

lemma quantum_qaoa_optimization_valid (sampler : ℕ → Option (List (List Bool × ℕ)))
    (pickO : ℕ → ℕ → ℕ → ℕ → ℕ) (D : ℕ → ℕ → ℚ) (n s : ℕ) (hs : s < n)
    (hsam : ∀ p c, sampler p = some c → c ≠ []) :
    ValidRoute n s (quantum_qaoa_optimization sampler pickO D n s) := by
  unfold quantum_qaoa_optimization
  have hvalid : ∀ r ∈ (List.range 3).flatMap (fun p =>
      match sampler p with
      | none => []
      | some counts =>
          (List.range 5).map (fun t =>
            advanced_decode_solution (pickO p t) counts n s D)),
      ValidRoute n s r := by
    intro r hr
    rw [List.mem_flatMap] at hr
    obtain ⟨p, _, hr2⟩ := hr
    rcases hsp : sampler p with _ | counts
    · rw [hsp] at hr2
      simp at hr2
    · rw [hsp] at hr2
      rw [List.mem_map] at hr2
      obtain ⟨t, _, rfl⟩ := hr2
      exact advanced_decode_solution_valid (pickO p t) counts n s D hs
        (hsam p counts hsp)
  rcases hcands : (List.range 3).flatMap (fun p =>
      match sampler p with
      | none => []
      | some counts =>
          (List.range 5).map (fun t =>
            advanced_decode_solution (pickO p t) counts n s D)) with _ | ⟨c, rest⟩
  · exact enhanced_two_opt_optimization_valid D n s hs
  · refine hvalid _ ?_
    rw [hcands]
    exact best_route_or_mem D _ _ (List.cons_ne_nil _ _)

lemma select_best_eq_first_min (D : ℕ → ℕ → ℚ) :
    ∀ l : List (String × List ℕ),
      select_best D l = first_min_by (fun p => calculate_route_cost D p.2) l := by
  intro l
  cases l with
  | nil => rfl
  | cons x xs =>
      show List.foldl _ (some x) xs = _
      rw [select_best_foldl_some, foldl_min_eq_first_min]
      rcases h : first_min_by (fun p => calculate_route_cost D p.2) xs with _ | y
      · simp [first_min_by, h]
      · simp only [first_min_by, h]
        by_cases h1 : calculate_route_cost D y.2 < calculate_route_cost D x.2
        · simp [if_pos h1]
        · simp [if_neg h1]


/-! ## Coordinator-level structure -/

lemma run_ensemble_ok (O : EnsembleOracle) (D : ℕ → ℕ → ℚ) (n s : ℕ) :
    run_ensemble O D n s =
      .ok (mk_hybrid_result D (ensemble_algorithms O D n s)) := by
  unfold run_ensemble hybrid_quantum_classical_optimization ensemble_algorithms
  by_cases h5 : 5 ≤ n <;> by_cases h4 : 4 ≤ n <;>
    simp [h5, h4, Except.map]

lemma ensemble_algorithms_names (O : EnsembleOracle) (D : ℕ → ℕ → ℚ) (n s : ℕ) :
    (ensemble_algorithms O D n s).map Prod.fst =
      (if n ≤ 8 ∧ O.qaoaFail = false then ["Quantum QAOA"] else []) ++
      ["Simulated Annealing"] ++
      (if 5 ≤ n then ["Genetic Algorithm"] else []) ++
      (if 4 ≤ n then ["Ant Colony"] else []) ++
      ["Enhanced 2-opt"] := by
  unfold ensemble_algorithms build_algorithms ensemble_qaoa_result
  by_cases h8 : n ≤ 8 <;> by_cases hqf : O.qaoaFail <;>
    by_cases h5 : 5 ≤ n <;> by_cases h4 : 4 ≤ n <;>
      simp [h8, hqf, h5, h4, Except.toOption]

lemma mk_hybrid_result_all_results (D : ℕ → ℕ → ℚ)
    (algs : List (String × List ℕ)) :
    (mk_hybrid_result D algs).all_results =
      algs.map (fun p => (p.1, calculate_route_cost D p.2)) := rfl

lemma mk_hybrid_result_route (D : ℕ → ℕ → ℚ) (algs : List (String × List ℕ)) :
    (mk_hybrid_result D algs).route = (select_best D algs).map (fun p => p.2) := rfl

lemma mk_hybrid_result_cost (D : ℕ → ℕ → ℚ) (algs : List (String × List ℕ)) :
    (mk_hybrid_result D algs).cost =
      (select_best D algs).map (fun p => calculate_route_cost D p.2) := rfl

lemma mk_hybrid_result_algorithm (D : ℕ → ℕ → ℚ)
    (algs : List (String × List ℕ)) :
    (mk_hybrid_result D algs).algorithm = (select_best D algs).map (fun p => p.1) := rfl

lemma sa_mem_ensemble_algorithms (O : EnsembleOracle) (D : ℕ → ℕ → ℚ)
    (n s : ℕ) :
    ("Simulated Annealing",
      simulated_annealing_optimization D n s O.saPick O.saAcc) ∈
      ensemble_algorithms O D n s := by
  unfold ensemble_algorithms build_algorithms
  simp

lemma ensemble_algorithms_ne_nil (O : EnsembleOracle) (D : ℕ → ℕ → ℚ)
    (n s : ℕ) : ensemble_algorithms O D n s ≠ [] :=
  List.ne_nil_of_mem (sa_mem_ensemble_algorithms O D n s)

lemma mem_option_entry {nm : String} {e : String × List ℕ} {o : Option (List ℕ)}
    (he : e ∈ o.elim ([] : List (String × List ℕ)) (fun r => [(nm, r)])) :
    o = some e.2 := by
  rcases o with _ | r
  · simp [Option.elim] at he
  · simp only [Option.elim, List.mem_singleton] at he
    rw [he]

lemma ensemble_algorithms_valid (O : EnsembleOracle) (D : ℕ → ℕ → ℚ)
    (n s : ℕ) (hs : s < n)
    (hsam : ∀ p c, O.sampler p = some c → c ≠ []) :
    ∀ e ∈ ensemble_algorithms O D n s, ValidRoute n s e.2 := by
  intro e he
  unfold ensemble_algorithms build_algorithms at he
  simp only [List.mem_append, List.mem_singleton] at he
  rcases he with (((hq | hsa) | hga) | haco) | ht
  · have hsome := mem_option_entry hq
    by_cases h8 : n ≤ 8
    · rw [if_pos h8] at hsome
      unfold ensemble_qaoa_result at hsome
      by_cases hqf : O.qaoaFail
      · rw [if_pos hqf] at hsome
        simp [Except.toOption] at hsome
      · rw [if_neg hqf] at hsome
        simp only [Except.toOption, Option.some.injEq] at hsome
        rw [← hsome]
        exact quantum_qaoa_optimization_valid O.sampler O.qaoaPick D n s hs hsam
    · rw [if_neg h8] at hsome
      simp at hsome
  · rw [hsa]
    exact simulated_annealing_valid D n s O.saPick O.saAcc hs
  · have hsome := mem_option_entry hga
    by_cases h5 : 5 ≤ n
    · rw [if_pos h5] at hsome
      simp only [Option.some.injEq] at hsome
      rw [← hsome]
      exact genetic_algorithm_optimization_valid D n s O.gaChoice 50 100 hs
        (by omega) (by omega)
    · rw [if_neg h5] at hsome
      simp at hsome
  · have hsome := mem_option_entry haco
    by_cases h4 : 4 ≤ n
    · rw [if_pos h4] at hsome
      simp only [Option.some.injEq] at hsome
      rw [← hsome]
      exact ant_colony_optimization_valid O.acoPick D n s 20 100 hs (by omega)
    · rw [if_neg h4] at hsome
      simp at hsome
  · rw [ht]
    exact enhanced_two_opt_optimization_valid D n s hs

/-! ## Cost-function facts -/

lemma calculate_route_cost_eq_sum (D : ℕ → ℕ → ℚ) :
    ∀ r : List ℕ, calculate_route_cost D r =
      ∑ i in Finset.range (r.length - 1), D (r.getD i 0) (r.getD (i + 1) 0) := by
  intro r
  induction r with
  | nil => simp [calculate_route_cost]
  | cons a t ih =>
      cases t with
      | nil => simp [calculate_route_cost]
      | cons b t2 =>
          rw [calculate_route_cost, ih]
          rw [show (a :: b :: t2).length - 1 = ((b :: t2).length - 1) + 1 by simp]
          rw [Finset.sum_range_succ']
          simp only [List.getD_cons_succ, List.getD_cons_zero]
          rw [add_comm]

lemma classical_cost_eq (D : ℕ → ℕ → ℚ) :
    ∀ r, classical_calculate_route_cost D r = calculate_route_cost D r
  | [] => rfl
  | [_] => rfl
  | a :: b :: rest => by
      rw [classical_calculate_route_cost, calculate_route_cost,
        classical_cost_eq D (b :: rest)]

lemma quantum_layer_cost_eq (D : ℕ → ℕ → ℚ) :
    ∀ r, quantum_layer_calculate_route_cost D r = calculate_route_cost D r
  | [] => rfl
  | [_] => rfl
  | a :: b :: rest => by
      rw [quantum_layer_calculate_route_cost, calculate_route_cost,
        quantum_layer_cost_eq D (b :: rest)]

lemma select_best_cost_le (D : ℕ → ℕ → ℚ) (algs : List (String × List ℕ))
    (w : String × List ℕ) (h : select_best D algs = some w) :
    ∀ x ∈ algs, calculate_route_cost D w.2 ≤ calculate_route_cost D x.2 := by
  rw [select_best_eq_first_min] at h
  exact first_min_by_le _ algs w h

lemma select_best_mem (D : ℕ → ℕ → ℚ) (algs : List (String × List ℕ))
    (w : String × List ℕ) (h : select_best D algs = some w) : w ∈ algs := by
  rw [select_best_eq_first_min] at h
  exact first_min_by_mem _ algs w h

lemma table_names_eq (D : ℕ → ℕ → ℚ) (algs : List (String × List ℕ)) :
    (algs.map (fun p => (p.1, calculate_route_cost D p.2))).map Prod.fst =
      algs.map Prod.fst := by
  rw [List.map_map]
  rfl

/-! ## Permutation-only guarantees (they hold even for empty samples) -/

lemma advanced_decode_cands_valid (pickO : ℕ → ℕ → ℕ)
    (counts : List (List Bool × ℕ)) (n s : ℕ) (D : ℕ → ℕ → ℚ) (hs : s < n) :
    ∀ r ∈ ((sortByCountDesc counts).take 10).enum.flatMap (fun bi =>
      [bitstring_to_route_greedy bi.2.1 n s D,
       bitstring_to_route_probabilistic (pickO bi.1) n s,
       nearest_neighbor_heuristic D n s]), ValidRoute n s r := by
  intro r hr
  rw [List.mem_flatMap] at hr
  obtain ⟨bi, _, hr2⟩ := hr
  simp only [List.mem_cons, List.mem_singleton, List.not_mem_nil, or_false] at hr2
  rcases hr2 with rfl | rfl | rfl
  · exact bitstring_to_route_greedy_valid _ n s D hs
  · exact bitstring_to_route_probabilistic_valid _ n s hs
  · exact nearest_neighbor_heuristic_valid D n s hs

lemma best_route_or_cases (D : ℕ → ℕ → ℚ) (fb : List ℕ)
    (cands : List (List ℕ)) :
    best_route_or D fb cands ∈ cands ∨ best_route_or D fb cands = fb := by
  cases cands with
  | nil => exact Or.inr rfl
  | cons c rest => exact Or.inl (min_route_by_cost_mem D _ (List.cons_ne_nil _ _))

lemma advanced_decode_solution_perm (pickO : ℕ → ℕ → ℕ)
    (counts : List (List Bool × ℕ)) (n s : ℕ) (D : ℕ → ℕ → ℚ) (hs : s < n) :
    (advanced_decode_solution pickO counts n s D).Perm (List.range n) := by
  rcases best_route_or_cases D (List.range n)
      (((sortByCountDesc counts).take 10).enum.flatMap (fun bi =>
        [bitstring_to_route_greedy bi.2.1 n s D,
         bitstring_to_route_probabilistic (pickO bi.1) n s,
         nearest_neighbor_heuristic D n s])) with h | h
  · exact (advanced_decode_cands_valid pickO counts n s D hs _ h).1
  · have h2 : advanced_decode_solution pickO counts n s D = List.range n := h
    rw [h2]

lemma quantum_qaoa_optimization_perm (sampler : ℕ → Option (List (List Bool × ℕ)))
    (pickO : ℕ → ℕ → ℕ → ℕ → ℕ) (D : ℕ → ℕ → ℚ) (n s : ℕ) (hs : s < n) :
    (quantum_qaoa_optimization sampler pickO D n s).Perm (List.range n) := by
  unfold quantum_qaoa_optimization
  have hall : ∀ r ∈ (List.range 3).flatMap (fun p =>
      match sampler p with
      | none => []
      | some counts =>
          (List.range 5).map (fun t =>
            advanced_decode_solution (pickO p t) counts n s D)),
      r.Perm (List.range n) := by
    intro r hr
    rw [List.mem_flatMap] at hr
    obtain ⟨p, _, hr2⟩ := hr
    rcases hsp : sampler p with _ | counts
    · rw [hsp] at hr2
      simp at hr2
    · rw [hsp] at hr2
      rw [List.mem_map] at hr2
      obtain ⟨t, _, rfl⟩ := hr2
      exact advanced_decode_solution_perm (pickO p t) counts n s D hs
  rcases hcands : (List.range 3).flatMap (fun p =>
      match sampler p with
      | none => []
      | some counts =>
          (List.range 5).map (fun t =>
            advanced_decode_solution (pickO p t) counts n s D)) with _ | ⟨c, rest⟩
  · exact (enhanced_two_opt_optimization_valid D n s hs).1
  · refine hall _ ?_
    rw [hcands]
    exact best_route_or_mem D _ _ (List.cons_ne_nil _ _)

lemma ensemble_algorithms_perm (O : EnsembleOracle) (D : ℕ → ℕ → ℚ)
    (n s : ℕ) (hs : s < n) :
    ∀ e ∈ ensemble_algorithms O D n s, e.2.Perm (List.range n) := by
  intro e he
  unfold ensemble_algorithms build_algorithms at he
  simp only [List.mem_append, List.mem_singleton] at he
  rcases he with (((hq | hsa) | hga) | haco) | ht
  · have hsome := mem_option_entry hq
    by_cases h8 : n ≤ 8
    · rw [if_pos h8] at hsome
      unfold ensemble_qaoa_result at hsome
      by_cases hqf : O.qaoaFail
      · rw [if_pos hqf] at hsome
        simp [Except.toOption] at hsome
      · rw [if_neg hqf] at hsome
        simp only [Except.toOption, Option.some.injEq] at hsome
        rw [← hsome]
        exact quantum_qaoa_optimization_perm O.sampler O.qaoaPick D n s hs
    · rw [if_neg h8] at hsome
      simp at hsome
  · rw [hsa]
    exact (simulated_annealing_valid D n s O.saPick O.saAcc hs).1
  · have hsome := mem_option_entry hga
    by_cases h5 : 5 ≤ n
    · rw [if_pos h5] at hsome
      simp only [Option.some.injEq] at hsome
      rw [← hsome]
      exact (genetic_algorithm_optimization_valid D n s O.gaChoice 50 100 hs
        (by omega) (by omega)).1
    · rw [if_neg h5] at hsome
      simp at hsome
  · have hsome := mem_option_entry haco
    by_cases h4 : 4 ≤ n
    · rw [if_pos h4] at hsome
      simp only [Option.some.injEq] at hsome
      rw [← hsome]
      exact (ant_colony_optimization_valid O.acoPick D n s 20 100 hs (by omega)).1
    · rw [if_neg h4] at hsome
      simp at hsome
  · rw [ht]
    exact (enhanced_two_opt_optimization_valid D n s hs).1

/-! ## The claims -/

/-- C7: the route cost is the sum of `D (r i) (r (i+1))` over consecutive
pairs (open path, no closing edge), is `0` for routes shorter than two
nodes, is computed identically by the classical module and the quantum
layer, and is the exact function behind the coordinator's comparison table
and winner cost. -/
theorem claim_c7_theorem (D : ℕ → ℕ → ℚ) (r : List ℕ) (O : EnsembleOracle)
    (n s : ℕ) :
    calculate_route_cost D r =
      ∑ i in Finset.range (r.length - 1), D (r.getD i 0) (r.getD (i + 1) 0) ∧
    (r.length < 2 → calculate_route_cost D r = 0) ∧
    classical_calculate_route_cost D r = calculate_route_cost D r ∧
    quantum_layer_calculate_route_cost D r = calculate_route_cost D r ∧
    (mk_hybrid_result D (ensemble_algorithms O D n s)).all_results =
      (ensemble_algorithms O D n s).map
        (fun p => (p.1, calculate_route_cost D p.2)) ∧
    (mk_hybrid_result D (ensemble_algorithms O D n s)).cost =
      (select_best D (ensemble_algorithms O D n s)).map
        (fun p => calculate_route_cost D p.2) := by
  refine ⟨calculate_route_cost_eq_sum D r, ?_, classical_cost_eq D r,
    quantum_layer_cost_eq D r, mk_hybrid_result_all_results D _,
    mk_hybrid_result_cost D _⟩
  intro hlen
  cases r with
  | nil => rfl
  | cons a t =>
      cases t with
      | nil => rfl
      | cons b t2 => exact absurd hlen (by simp)

theorem claim_c7_witness :
    ([5] : List ℕ).length < 2 ∧ calculate_route_cost uniformD [5] = 0 :=
  ⟨by decide, (claim_c7_theorem uniformD [5] oracleNoneSampler 1 0).2.1 (by decide)⟩

/-- C8 (amended): the capped 2-opt loop (cap 50 in the classical module,
cap 100 in the quantum module) is idempotent on an input whose first
result admits no further improving sweep; on asymmetric instances the
sweep can cycle and exhaust the cap, and idempotence fails
(`claim_c8_counterexample`). -/
theorem claim_c8_theorem (D : ℕ → ℕ → ℚ) (r : List ℕ)
    (h1 : (twoOptPass D (two_opt_optimization D r)).2 = false)
    (h2 : (twoOptPass D (two_opt_improvement D r)).2 = false) :
    two_opt_optimization D (two_opt_optimization D r) =
      two_opt_optimization D r ∧
    two_opt_improvement D (two_opt_improvement D r) =
      two_opt_improvement D r :=
  ⟨twoOptLoop_fix D _ h1 50, twoOptLoop_fix D _ h2 100⟩

theorem claim_c8_counterexample :
    two_opt_optimization cycleD (two_opt_optimization cycleD [2, 3, 4, 1, 0]) ≠
      two_opt_optimization cycleD [2, 3, 4, 1, 0] ∧
    two_opt_improvement cycleD (two_opt_improvement cycleD [2, 3, 4, 1, 0]) ≠
      two_opt_improvement cycleD [2, 3, 4, 1, 0] := by
  constructor <;> with_unfolding_all decide

theorem claim_c8_witness :
    (twoOptPass uniformD (two_opt_optimization uniformD [0, 1, 2, 3])).2 = false ∧
    (twoOptPass uniformD (two_opt_improvement uniformD [0, 1, 2, 3])).2 = false ∧
    (two_opt_optimization uniformD (two_opt_optimization uniformD [0, 1, 2, 3]) =
        two_opt_optimization uniformD [0, 1, 2, 3] ∧
      two_opt_improvement uniformD (two_opt_improvement uniformD [0, 1, 2, 3]) =
        two_opt_improvement uniformD [0, 1, 2, 3]) :=
  ⟨by with_unfolding_all decide, by with_unfolding_all decide,
    claim_c8_theorem uniformD [0, 1, 2, 3] (by with_unfolding_all decide)
      (by with_unfolding_all decide)⟩

/-- C9: `np.random.shuffle` acts on a slice copy, so the genetic
algorithm's initial population is `P` identical copies of the seed route
`startIndex :: remaining-in-ascending-order`, with no randomised
diversity. -/
theorem claim_c9_theorem (n s P : ℕ) :
    ga_init_population n s P =
      List.replicate P (s :: (List.range n).erase s) ∧
    ∀ r ∈ ga_init_population n s P, r = s :: (List.range n).erase s := by
  refine ⟨rfl, ?_⟩
  intro r hr
  exact (List.mem_replicate.1 hr).2

theorem claim_c9_witness :
    identity_seed_route 5 2 ∈ ga_init_population 5 2 3 ∧
    identity_seed_route 5 2 = 2 :: (List.range 5).erase 2 :=
  ⟨by decide, (claim_c9_theorem 5 2 3).2 _ (by decide)⟩

/-- C10: the random 2-opt swap returns any route of fewer than four nodes
unchanged, so for `n ≤ 3` simulated annealing returns exactly its
nearest-neighbor seed, whatever the temperature schedule, the proposal
draws and the acceptance draws do. -/
theorem claim_c10_theorem (ab : ℕ × ℕ) (r : List ℕ) (hr : r.length < 4)
    (D : ℕ → ℕ → ℚ) (n s : ℕ) (pickO : ℕ → ℕ × ℕ) (accO : ℕ → Bool)
    (hn : n ≤ 3) (hs : s < n) :
    two_opt_swap ab r = r ∧
    simulated_annealing_optimization D n s pickO accO =
      nearest_neighbor_heuristic D n s :=
  ⟨two_opt_swap_short ab r hr, simulated_annealing_small D n s pickO accO hn hs⟩

theorem claim_c10_witness :
    ([0, 1, 2] : List ℕ).length < 4 ∧ (3 : ℕ) ≤ 3 ∧ (1 : ℕ) < 3 ∧
    (two_opt_swap (1, 2) [0, 1, 2] = [0, 1, 2] ∧
      simulated_annealing_optimization uniformD 3 1 (fun _ => (1, 2))
        (fun _ => true) = nearest_neighbor_heuristic uniformD 3 1) :=
  ⟨by decide, by decide, by decide,
    claim_c10_theorem (1, 2) [0, 1, 2] (by decide) uniformD 3 1
      (fun _ => (1, 2)) (fun _ => true) (by decide) (by decide)⟩

/-- C4: whatever the oracle draws do, the cost reported by a successful
ensemble run is at most the open-path cost of the plain nearest-neighbor
route from the same start: simulated annealing's best-so-far tracking never
loses its nearest-neighbor seed, and the winner fold only improves on every
entry. -/
theorem claim_c4_theorem (O : EnsembleOracle) (D : ℕ → ℕ → ℚ) (n s : ℕ)
    (r : HybridResult) (h : run_ensemble O D n s = Except.ok r) :
    ∃ c, r.cost = some c ∧
      c ≤ calculate_route_cost D (nearest_neighbor_heuristic D n s) := by
  rw [run_ensemble_ok] at h
  injection h with h2
  subst h2
  rcases hsel : select_best D (ensemble_algorithms O D n s) with _ | w
  · exfalso
    apply ensemble_algorithms_ne_nil O D n s
    apply (first_min_by_eq_none (fun p => calculate_route_cost D p.2) _).1
    rw [← select_best_eq_first_min]
    exact hsel
  · refine ⟨calculate_route_cost D w.2, ?_, ?_⟩
    · rw [mk_hybrid_result_cost, hsel]
      rfl
    · exact le_trans
        (select_best_cost_le D _ w hsel _ (sa_mem_ensemble_algorithms O D n s))
        (simulated_annealing_cost_le D n s O.saPick O.saAcc)

theorem claim_c4_witness :
    ∃ c, (mk_hybrid_result uniformD
        (ensemble_algorithms oracleNoneSampler uniformD 1 0)).cost = some c ∧
      c ≤ calculate_route_cost uniformD (nearest_neighbor_heuristic uniformD 1 0) :=
  claim_c4_theorem oracleNoneSampler uniformD 1 0 _ (run_ensemble_ok _ _ _ _)

/-- C6 (amended): the comparison table of a successful ensemble run lists
exactly Quantum QAOA when `n ≤ 8` and its call did not raise, Simulated
Annealing always, the Genetic Algorithm when `5 ≤ n`, Ant Colony when
`4 ≤ n`, and Enhanced 2-opt always — in that order, and with no
nearest-neighbor entry of its own (`claim_c6_counterexample`). -/
theorem claim_c6_theorem (O : EnsembleOracle) (D : ℕ → ℕ → ℚ) (n s : ℕ)
    (r : HybridResult) (h : run_ensemble O D n s = Except.ok r) :
    r.all_results.map Prod.fst =
      (if n ≤ 8 ∧ O.qaoaFail = false then ["Quantum QAOA"] else []) ++
      ["Simulated Annealing"] ++
      (if 5 ≤ n then ["Genetic Algorithm"] else []) ++
      (if 4 ≤ n then ["Ant Colony"] else []) ++ ["Enhanced 2-opt"] := by
  rw [run_ensemble_ok] at h
  injection h with h2
  subst h2
  rw [mk_hybrid_result_all_results, table_names_eq, ensemble_algorithms_names]

theorem claim_c6_witness :
    (mk_hybrid_result uniformD
        (ensemble_algorithms oracleQaoaFail uniformD 3 1)).all_results.map
        Prod.fst =
      (if 3 ≤ 8 ∧ oracleQaoaFail.qaoaFail = false then ["Quantum QAOA"] else []) ++
      ["Simulated Annealing"] ++ (if 5 ≤ 3 then ["Genetic Algorithm"] else []) ++
      (if 4 ≤ 3 then ["Ant Colony"] else []) ++ ["Enhanced 2-opt"] :=
  claim_c6_theorem oracleQaoaFail uniformD 3 1 _ (run_ensemble_ok _ _ _ _)

theorem claim_c6_counterexample :
    run_ensemble oracleQaoaFail uniformD 3 1 =
      Except.ok (mk_hybrid_result uniformD
        (ensemble_algorithms oracleQaoaFail uniformD 3 1)) ∧
    (mk_hybrid_result uniformD
        (ensemble_algorithms oracleQaoaFail uniformD 3 1)).all_results.map
        Prod.fst = ["Simulated Annealing", "Enhanced 2-opt"] ∧
    "Nearest Neighbor" ∉ ["Simulated Annealing", "Enhanced 2-opt"] ∧
    (3 : ℕ) ≤ 8 ∧ "Quantum QAOA" ∉ ["Simulated Annealing", "Enhanced 2-opt"] := by
  refine ⟨run_ensemble_ok _ _ _ _, ?_, by decide, by decide, by decide⟩
  rw [mk_hybrid_result_all_results, table_names_eq, ensemble_algorithms_names]
  decide

/-- C3 (amended): only the Quantum QAOA call is wrapped in the
coordinator's `try/except`: when it alone raises, the run still succeeds
and its table lacks only the quantum entry while Simulated Annealing is
present; but an exception from any other algorithm propagates out of the
coordinator (`claim_c3_counterexample`), where `optimize_route`'s outer
handler replaces the whole run by the bare nearest-neighbor response,
which carries no comparison table at all. -/
theorem claim_c3_theorem (O : EnsembleOracle) (D : ℕ → ℕ → ℚ) (n s : ℕ)
    (hqf : O.qaoaFail = true) :
    (∃ r, run_ensemble O D n s = Except.ok r ∧
      "Quantum QAOA" ∉ r.all_results.map Prod.fst ∧
      "Simulated Annealing" ∈ r.all_results.map Prod.fst) ∧
    optimize_route D n s (Except.error ()) =
      { route := nearest_neighbor_heuristic D n s,
        backend := "Classical Fallback", optimization_level := 1,
        cost := calculate_route_cost D (nearest_neighbor_heuristic D n s),
        algorithm_comparison := none } := by
  constructor
  · refine ⟨mk_hybrid_result D (ensemble_algorithms O D n s),
      run_ensemble_ok O D n s, ?_, ?_⟩
    · rw [mk_hybrid_result_all_results, table_names_eq,
        ensemble_algorithms_names, hqf]
      by_cases h5 : 5 ≤ n <;> by_cases h4 : 4 ≤ n <;> simp [h5, h4]
    · rw [mk_hybrid_result_all_results, table_names_eq,
        ensemble_algorithms_names, hqf]
      by_cases h5 : 5 ≤ n <;> by_cases h4 : 4 ≤ n <;> simp [h5, h4]
  · rfl

theorem claim_c3_witness :
    (∃ r, run_ensemble oracleQaoaFail uniformD 1 0 = Except.ok r ∧
      "Quantum QAOA" ∉ r.all_results.map Prod.fst ∧
      "Simulated Annealing" ∈ r.all_results.map Prod.fst) ∧
    optimize_route uniformD 1 0 (Except.error ()) =
      { route := nearest_neighbor_heuristic uniformD 1 0,
        backend := "Classical Fallback", optimization_level := 1,
        cost := calculate_route_cost uniformD (nearest_neighbor_heuristic uniformD 1 0),
        algorithm_comparison := none } :=
  claim_c3_theorem oracleQaoaFail uniformD 1 0 rfl

theorem claim_c3_counterexample :
    hybrid_quantum_classical_optimization uniformD 5
      (Except.ok [0, 1, 2, 3, 4]) (Except.error ())
      (Except.ok [0, 1, 2, 3, 4]) (Except.ok [0, 1, 2, 3, 4])
      (Except.ok [0, 1, 2, 3, 4]) = Except.error () ∧
    optimize_route uniformD 5 0 (Except.error ()) =
      { route := [0, 1, 2, 3, 4], backend := "Classical Fallback",
        optimization_level := 1, cost := 4, algorithm_comparison := none } := by
  constructor
  · rfl
  · with_unfolding_all decide

/-- C2 (amended): a successful ensemble run's winner is an entry of
minimal cost in the comparison list, and among equal-cost entries the one
listed FIRST in the coordinator's own insertion order — Quantum QAOA,
Simulated Annealing, Genetic Algorithm, Ant Colony, Enhanced 2-opt — wins
(every entry strictly before the winner costs strictly more); this differs
from the spec's priority order, which ranks 2-opt/3-opt before simulated
annealing (`claim_c2_counterexample`). -/
theorem claim_c2_theorem (O : EnsembleOracle) (D : ℕ → ℕ → ℚ) (n s : ℕ)
    (r : HybridResult) (h : run_ensemble O D n s = Except.ok r) :
    ∃ w l₁ l₂, ensemble_algorithms O D n s = l₁ ++ w :: l₂ ∧
      r.algorithm = some w.1 ∧ r.route = some w.2 ∧
      r.cost = some (calculate_route_cost D w.2) ∧
      (∀ x ∈ ensemble_algorithms O D n s,
        calculate_route_cost D w.2 ≤ calculate_route_cost D x.2) ∧
      (∀ x ∈ l₁, calculate_route_cost D w.2 < calculate_route_cost D x.2) := by
  rw [run_ensemble_ok] at h
  injection h with h2
  subst h2
  rcases hsel : select_best D (ensemble_algorithms O D n s) with _ | w
  · exfalso
    apply ensemble_algorithms_ne_nil O D n s
    apply (first_min_by_eq_none (fun p => calculate_route_cost D p.2) _).1
    rw [← select_best_eq_first_min]
    exact hsel
  · have hfm : first_min_by (fun p => calculate_route_cost D p.2)
        (ensemble_algorithms O D n s) = some w := by
      rw [← select_best_eq_first_min]
      exact hsel
    obtain ⟨l₁, l₂, hdec, hstrict⟩ := first_min_by_earliest _ _ w hfm
    refine ⟨w, l₁, l₂, hdec, ?_, ?_, ?_,
      select_best_cost_le D _ w hsel, hstrict⟩
    · rw [mk_hybrid_result_algorithm, hsel]
      rfl
    · rw [mk_hybrid_result_route, hsel]
      rfl
    · rw [mk_hybrid_result_cost, hsel]
      rfl

theorem claim_c2_witness :
    ∃ w l₁ l₂, ensemble_algorithms oracleQaoaFail uniformD 1 0 = l₁ ++ w :: l₂ ∧
      (mk_hybrid_result uniformD
        (ensemble_algorithms oracleQaoaFail uniformD 1 0)).algorithm = some w.1 ∧
      (mk_hybrid_result uniformD
        (ensemble_algorithms oracleQaoaFail uniformD 1 0)).route = some w.2 ∧
      (mk_hybrid_result uniformD
        (ensemble_algorithms oracleQaoaFail uniformD 1 0)).cost =
        some (calculate_route_cost uniformD w.2) ∧
      (∀ x ∈ ensemble_algorithms oracleQaoaFail uniformD 1 0,
        calculate_route_cost uniformD w.2 ≤ calculate_route_cost uniformD x.2) ∧
      (∀ x ∈ l₁,
        calculate_route_cost uniformD w.2 < calculate_route_cost uniformD x.2) :=
  claim_c2_theorem oracleQaoaFail uniformD 1 0 _ (run_ensemble_ok _ _ _ _)

theorem claim_c2_counterexample :
    run_ensemble oracleQaoaFail uniformD 3 1 =
      Except.ok (mk_hybrid_result uniformD
        (ensemble_algorithms oracleQaoaFail uniformD 3 1)) ∧
    (mk_hybrid_result uniformD
        (ensemble_algorithms oracleQaoaFail uniformD 3 1)).all_results =
      [("Simulated Annealing", 2), ("Enhanced 2-opt", 2)] ∧
    (mk_hybrid_result uniformD
        (ensemble_algorithms oracleQaoaFail uniformD 3 1)).algorithm =
      some "Simulated Annealing" ∧
    spec_priority "Enhanced 2-opt" < spec_priority "Simulated Annealing" := by
  refine ⟨run_ensemble_ok _ _ _ _, ?_, ?_, by decide⟩
  all_goals
    unfold ensemble_algorithms
    rw [simulated_annealing_small uniformD 3 1 _ _ (by omega) (by omega)]
    with_unfolding_all decide

/-- C1 (amended): every route the coordinator receives is a permutation of
`0..n-1` (hence of length `n`); if moreover every successful sampler
outcome is a non-empty count list, every such route also starts at
`startIndex`.  Without that proviso the quantum path can hand the
coordinator the unrotated identity fallback, which starts at `0`
(`claim_c1_counterexample`). -/
theorem claim_c1_theorem (O : EnsembleOracle) (D : ℕ → ℕ → ℚ) (n s : ℕ)
    (hs : s < n) :
    (∀ e ∈ ensemble_algorithms O D n s,
      e.2.Perm (List.range n) ∧ e.2.length = n) ∧
    ((∀ p c, O.sampler p = some c → c ≠ []) →
      ∀ e ∈ ensemble_algorithms O D n s, ValidRoute n s e.2) := by
  constructor
  · intro e he
    have hp := ensemble_algorithms_perm O D n s hs e he
    exact ⟨hp, by rw [hp.length_eq, List.length_range]⟩
  · intro hsam e he
    exact ensemble_algorithms_valid O D n s hs hsam e he

theorem claim_c1_witness :
    ("Simulated Annealing",
      simulated_annealing_optimization uniformD 1 0 oracleNoneSampler.saPick
        oracleNoneSampler.saAcc) ∈
      ensemble_algorithms oracleNoneSampler uniformD 1 0 ∧
    ValidRoute 1 0
      (simulated_annealing_optimization uniformD 1 0 oracleNoneSampler.saPick
        oracleNoneSampler.saAcc) :=
  ⟨sa_mem_ensemble_algorithms oracleNoneSampler uniformD 1 0,
    (claim_c1_theorem oracleNoneSampler uniformD 1 0 (by decide)).2
      (fun p c h => Option.noConfusion h) _
      (sa_mem_ensemble_algorithms oracleNoneSampler uniformD 1 0)⟩

set_option maxRecDepth 100000 in
theorem claim_c1_counterexample :
    ("Quantum QAOA", [0, 1, 2]) ∈
      ensemble_algorithms oracleEmptyCounts uniformD 3 1 ∧
    ¬ (([0, 1, 2] : List ℕ).head? = some 1) := by
  constructor
  · unfold ensemble_algorithms
    rw [simulated_annealing_small uniformD 3 1 _ _ (by omega) (by omega)]
    with_unfolding_all decide
  · decide

/-- C5 (amended): when no decode candidate survives, both fallbacks return
the UNROTATED identity ordering: `advanced_decode_solution` falls back to
`list(range(n_nodes))` and `decode_quantum_results` to
`[list(range(n_nodes))]`; neither rotates to `startIndex` as the spec
prescribes (`claim_c5_counterexample`). -/
theorem claim_c5_theorem (pickO : ℕ → ℕ → ℕ) (pickO2 : ℕ → ℕ → ℕ)
    (n s : ℕ) (D : ℕ → ℕ → ℚ) :
    advanced_decode_solution pickO [] n s D = List.range n ∧
    decode_quantum_results pickO2 [] n = [List.range n] :=
  ⟨rfl, rfl⟩

theorem claim_c5_counterexample :
    advanced_decode_solution (fun _ _ => 0) [] 3 1 uniformD = [0, 1, 2] ∧
    spec_identity_rotated 3 1 = [1, 2, 0] ∧
    advanced_decode_solution (fun _ _ => 0) [] 3 1 uniformD ≠
      spec_identity_rotated 3 1 := by
  refine ⟨rfl, by decide, by decide⟩
